import Mathlib

/-!
# Verification of the librope UTF-8 rope (`src/rope.h`)

The repository ships the public header `rope.h`: the data model (`rope_node`,
`rope_skip_node`, `rope`), the tuning constants (`ROPE_NODE_STR_SIZE`,
`ROPE_BIAS`, `ROPE_MAX_HEIGHT`) and the documented contracts of every public
operation.  The implementation file with the algorithm bodies is not part of
the source tree, so the operational definitions below are modelled from the
specification document (its §3 data model, §4.1 codepoint scanner, §4.3
insertion, §4.4 deletion, §4.5 height generation, §4.6 lifecycle), staying
with the header's names, types and constants.

Machine integers are modelled as `Nat`: every quantity in scope (byte values
< 256, counts bounded by buffer sizes) stays far below every relevant
`uint8_t`/`uint16_t`/`uint32_t` bound, so no wrap-around arithmetic occurs.
Byte buffers are `List Nat`; the skip index is represented at level 0, which
by the §3 invariant is the complete ordered sequence of segments.
-/

/-- `ROPE_NODE_STR_SIZE` from `rope.h`: fixed per-node buffer capacity. -/
def ROPE_NODE_STR_SIZE : Nat := 136

/-- `ROPE_BIAS` from `rope.h`: the likelihood (%) a node will have height
`n+1` instead of `n`. -/
def ROPE_BIAS : Nat := 25

/-- `ROPE_MAX_HEIGHT` from `rope.h`: cap on node heights. -/
def ROPE_MAX_HEIGHT : Nat := 60

/-! ## Codepoint scanner (spec §4.1)

Modelled from the spec: the scanner validates that caller-supplied bytes are
well-formed UTF-8 from start to end (rejecting invalid continuation bytes,
overlong encodings and premature termination) and reports the character
count.  `rope.c` is not in the source tree; the functions below follow the
spec's description of the scanner over byte lists. -/

/-- A UTF-8 continuation byte: `0x80 ≤ b < 0xC0`. -/
def utf8_cont (b : Nat) : Bool := 128 ≤ b && b < 192

/-- Length (1–4) of the well-formed UTF-8 sequence starting the list, or
`none` if the list does not start with a well-formed sequence.  Overlong
encodings (lead bytes `0xC0`/`0xC1`, the `0xE0`/`0xF0` second-byte floors),
surrogates (the `0xED` second-byte ceiling), values beyond `U+10FFFF` (the
`0xF4` ceiling and lead bytes `0xF5`–`0xFF`) and truncated sequences are all
rejected. -/
def utf8DecodeLen (l : List Nat) : Option Nat :=
  let b0 := l.getD 0 0
  let b1 := l.getD 1 0
  if l.length = 0 then none
  else if b0 < 128 then some 1
  else if b0 < 194 then none
  else if b0 < 224 then
    if utf8_cont b1 && decide (2 ≤ l.length) then some 2 else none
  else if b0 < 240 then
    if utf8_cont b1 && utf8_cont (l.getD 2 0) && decide (3 ≤ l.length) &&
       (decide (b0 ≠ 224) || decide (160 ≤ b1)) &&
       (decide (b0 ≠ 237) || decide (b1 < 160))
    then some 3 else none
  else if b0 < 245 then
    if utf8_cont b1 && utf8_cont (l.getD 2 0) && utf8_cont (l.getD 3 0) &&
       decide (4 ≤ l.length) &&
       (decide (b0 ≠ 240) || decide (144 ≤ b1)) &&
       (decide (b0 ≠ 244) || decide (b1 < 144))
    then some 4 else none
  else none

theorem utf8DecodeLen_pos {l : List Nat} {k : Nat}
    (h : utf8DecodeLen l = some k) : 1 ≤ k := by
  simp only [utf8DecodeLen] at h
  split_ifs at h <;> cases h <;> omega

theorem utf8DecodeLen_le_four {l : List Nat} {k : Nat}
    (h : utf8DecodeLen l = some k) : k ≤ 4 := by
  simp only [utf8DecodeLen] at h
  split_ifs at h <;> cases h <;> omega

theorem utf8DecodeLen_le_length {l : List Nat} {k : Nat}
    (h : utf8DecodeLen l = some k) : k ≤ l.length := by
  simp only [utf8DecodeLen] at h
  split_ifs at h <;> cases h
  · omega
  · rename_i hc
    simp only [Bool.and_eq_true, decide_eq_true_eq] at hc
    omega
  · rename_i hc
    simp only [Bool.and_eq_true, decide_eq_true_eq] at hc
    omega
  · rename_i hc
    simp only [Bool.and_eq_true, decide_eq_true_eq] at hc
    omega

/-- `getD` of a `take`: within the taken range, `take` does not change the
element. -/
theorem getD_take {l : List Nat} {k i : Nat} (h : i < k) :
    (l.take k).getD i 0 = l.getD i 0 := by
  induction l generalizing k i with
  | nil => simp
  | cons a t ih =>
    cases k with
    | zero => omega
    | succ k =>
      cases i with
      | zero => simp
      | succ i => simpa using ih (by omega)

/-- `getD` of a prefix-append: within the prefix, the suffix is invisible. -/
theorem getD_take_append {l r : List Nat} {k i : Nat} (hik : i < k)
    (hkl : k ≤ l.length) :
    (l.take k ++ r).getD i 0 = l.getD i 0 := by
  rw [List.getD_append _ _ _ _ (by simp; omega), getD_take hik]

/-- The decoder only inspects the first `k` bytes: replacing everything after
them leaves the result unchanged. -/
theorem utf8DecodeLen_take_append {l : List Nat} {k : Nat} (r : List Nat)
    (h : utf8DecodeLen l = some k) :
    utf8DecodeLen (l.take k ++ r) = some k := by
  have hkl : k ≤ l.length := utf8DecodeLen_le_length h
  have hk1 : 1 ≤ k := utf8DecodeLen_pos h
  have hlen : (l.take k ++ r).length = k + r.length := by
    simp; omega
  have hg0 : (l.take k ++ r).getD 0 0 = l.getD 0 0 := by
    exact getD_take_append (by omega) hkl
  simp only [utf8DecodeLen] at h ⊢
  split_ifs at h <;> cases h
  · -- 1-byte
    rename_i hne hb0
    rw [hg0, hlen]
    rw [if_neg (by omega), if_pos hb0]
  · -- 2-byte
    rename_i hne h128 h194 h224 hc
    simp only [Bool.and_eq_true, decide_eq_true_eq] at hc
    have hg1 : (l.take 2 ++ r).getD 1 0 = l.getD 1 0 :=
      getD_take_append (by omega) hkl
    rw [hg0, hg1, hlen]
    have hcnew : (utf8_cont (l.getD 1 0) && decide (2 ≤ 2 + r.length)) = true := by
      simp only [Bool.and_eq_true, decide_eq_true_eq]
      refine ⟨hc.1, ?_⟩
      omega
    rw [if_neg (by omega), if_neg h128, if_neg h194, if_pos h224, if_pos hcnew]
  · -- 3-byte
    rename_i hne h128 h194 h224 h240 hc
    simp only [Bool.and_eq_true, Bool.or_eq_true, decide_eq_true_eq] at hc
    have hg1 : (l.take 3 ++ r).getD 1 0 = l.getD 1 0 :=
      getD_take_append (by omega) hkl
    have hg2 : (l.take 3 ++ r).getD 2 0 = l.getD 2 0 :=
      getD_take_append (by omega) hkl
    rw [hg0, hg1, hg2, hlen]
    have hcnew : (utf8_cont (l.getD 1 0) && utf8_cont (l.getD 2 0) &&
        decide (3 ≤ 3 + r.length) &&
        (decide (l.getD 0 0 ≠ 224) || decide (160 ≤ l.getD 1 0)) &&
        (decide (l.getD 0 0 ≠ 237) || decide (l.getD 1 0 < 160))) = true := by
      simp only [Bool.and_eq_true, Bool.or_eq_true, decide_eq_true_eq]
      refine ⟨⟨⟨⟨hc.1.1.1.1, hc.1.1.1.2⟩, ?_⟩, hc.1.2⟩, hc.2⟩
      omega
    rw [if_neg (by omega), if_neg h128, if_neg h194, if_neg h224, if_pos h240,
      if_pos hcnew]
  · -- 4-byte
    rename_i hne h128 h194 h224 h240 h245 hc
    simp only [Bool.and_eq_true, Bool.or_eq_true, decide_eq_true_eq] at hc
    have hg1 : (l.take 4 ++ r).getD 1 0 = l.getD 1 0 :=
      getD_take_append (by omega) hkl
    have hg2 : (l.take 4 ++ r).getD 2 0 = l.getD 2 0 :=
      getD_take_append (by omega) hkl
    have hg3 : (l.take 4 ++ r).getD 3 0 = l.getD 3 0 :=
      getD_take_append (by omega) hkl
    rw [hg0, hg1, hg2, hg3, hlen]
    have hcnew : (utf8_cont (l.getD 1 0) && utf8_cont (l.getD 2 0) &&
        utf8_cont (l.getD 3 0) && decide (4 ≤ 4 + r.length) &&
        (decide (l.getD 0 0 ≠ 240) || decide (144 ≤ l.getD 1 0)) &&
        (decide (l.getD 0 0 ≠ 244) || decide (l.getD 1 0 < 144))) = true := by
      simp only [Bool.and_eq_true, Bool.or_eq_true, decide_eq_true_eq]
      refine ⟨⟨⟨⟨⟨hc.1.1.1.1.1, hc.1.1.1.1.2⟩, hc.1.1.1.2⟩, ?_⟩, hc.1.2⟩, hc.2⟩
      omega
    rw [if_neg (by omega), if_neg h128, if_neg h194, if_neg h224, if_neg h240,
      if_pos h245, if_pos hcnew]

/-- Fueled worker for `count_chars`.  The fuel argument only makes the
recursion structural; with fuel at least the list length it never runs out
(every decoded sequence consumes at least one byte). -/
def countCharsGo : Nat → List Nat → Nat
  | _, [] => 0
  | 0, _ :: _ => 0
  | f + 1, b :: t =>
    match utf8DecodeLen (b :: t) with
    | some k => 1 + countCharsGo f ((b :: t).drop k)
    | none => 0

/-- Number of leading whole UTF-8 sequences of a buffer (its character count
when the buffer is valid).  This is the quantity `rope.h` documents as
`rope_node_chars`: the per-segment character count. -/
def count_chars (l : List Nat) : Nat := countCharsGo l.length l

/-- Fueled worker for `utf8_count_chars?`. -/
def utf8CountGo : Nat → List Nat → Option Nat
  | _, [] => some 0
  | 0, _ :: _ => none
  | f + 1, b :: t =>
    match utf8DecodeLen (b :: t) with
    | some k => (utf8CountGo f ((b :: t).drop k)).map (· + 1)
    | none => none

/-- The codepoint scanner of spec §4.1: validates that the bytes are
well-formed UTF-8 from start to end and reports the character count, `none`
on malformed input. -/
def utf8_count_chars? (l : List Nat) : Option Nat := utf8CountGo l.length l

/-- Fueled worker for `utf8_groups?`. -/
def utf8GroupsGo : Nat → List Nat → Option (List (List Nat))
  | _, [] => some []
  | 0, _ :: _ => none
  | f + 1, b :: t =>
    match utf8DecodeLen (b :: t) with
    | some k => (utf8GroupsGo f ((b :: t).drop k)).map ((b :: t).take k :: ·)
    | none => none

/-- Proof-side view of a valid buffer: the list of its codepoint byte
groups. -/
def utf8_groups? (l : List Nat) : Option (List (List Nat)) :=
  utf8GroupsGo l.length l

/-- Byte offset of the `n`-th character boundary of a buffer (clamping to the
full byte length once the characters run out).  This is the in-segment
offset computation of spec §4.2: from a character offset, count codepoint
boundaries within the segment's buffer to get the byte offset. -/
def chars_to_bytes : List Nat → Nat → Nat
  | _, 0 => 0
  | l, n + 1 =>
    match utf8DecodeLen l with
    | some k => k + chars_to_bytes (l.drop k) n
    | none => 0

theorem countCharsGo_fuel {f g : Nat} {l : List Nat}
    (hf : l.length ≤ f) (hg : l.length ≤ g) :
    countCharsGo f l = countCharsGo g l := by
  induction f using Nat.strong_induction_on generalizing g l with
  | _ f ih =>
    match l with
    | [] => cases f <;> cases g <;> rfl
    | b :: t =>
      cases f with
      | zero => simp at hf
      | succ f =>
        cases g with
        | zero => simp at hg
        | succ g =>
          simp only [countCharsGo]
          cases hk : utf8DecodeLen (b :: t) with
          | none => rfl
          | some k =>
            have h1 : 1 ≤ k := utf8DecodeLen_pos hk
            show 1 + countCharsGo f ((b :: t).drop k) =
              1 + countCharsGo g ((b :: t).drop k)
            have hdf : ((b :: t).drop k).length ≤ f := by
              simp at hf ⊢
              omega
            have hdg : ((b :: t).drop k).length ≤ g := by
              simp at hg ⊢
              omega
            rw [ih f (by omega) hdf hdg]

theorem utf8CountGo_fuel {f g : Nat} {l : List Nat}
    (hf : l.length ≤ f) (hg : l.length ≤ g) :
    utf8CountGo f l = utf8CountGo g l := by
  induction f using Nat.strong_induction_on generalizing g l with
  | _ f ih =>
    match l with
    | [] => cases f <;> cases g <;> rfl
    | b :: t =>
      cases f with
      | zero => simp at hf
      | succ f =>
        cases g with
        | zero => simp at hg
        | succ g =>
          simp only [utf8CountGo]
          cases hk : utf8DecodeLen (b :: t) with
          | none => rfl
          | some k =>
            have h1 : 1 ≤ k := utf8DecodeLen_pos hk
            show (utf8CountGo f ((b :: t).drop k)).map (· + 1) =
              (utf8CountGo g ((b :: t).drop k)).map (· + 1)
            have hdf : ((b :: t).drop k).length ≤ f := by
              simp at hf ⊢
              omega
            have hdg : ((b :: t).drop k).length ≤ g := by
              simp at hg ⊢
              omega
            rw [ih f (by omega) hdf hdg]

theorem utf8GroupsGo_fuel {f g : Nat} {l : List Nat}
    (hf : l.length ≤ f) (hg : l.length ≤ g) :
    utf8GroupsGo f l = utf8GroupsGo g l := by
  induction f using Nat.strong_induction_on generalizing g l with
  | _ f ih =>
    match l with
    | [] => cases f <;> cases g <;> rfl
    | b :: t =>
      cases f with
      | zero => simp at hf
      | succ f =>
        cases g with
        | zero => simp at hg
        | succ g =>
          simp only [utf8GroupsGo]
          cases hk : utf8DecodeLen (b :: t) with
          | none => rfl
          | some k =>
            have h1 : 1 ≤ k := utf8DecodeLen_pos hk
            show (utf8GroupsGo f ((b :: t).drop k)).map ((b :: t).take k :: ·) =
              (utf8GroupsGo g ((b :: t).drop k)).map ((b :: t).take k :: ·)
            have hdf : ((b :: t).drop k).length ≤ f := by
              simp at hf ⊢
              omega
            have hdg : ((b :: t).drop k).length ≤ g := by
              simp at hg ⊢
              omega
            rw [ih f (by omega) hdf hdg]

/-- Step equation for `count_chars` on a nonempty buffer. -/
theorem count_chars_step {b : Nat} {t : List Nat} :
    count_chars (b :: t) =
      (match utf8DecodeLen (b :: t) with
       | some k => 1 + count_chars ((b :: t).drop k)
       | none => 0) := by
  show countCharsGo (t.length + 1) (b :: t) = _
  simp only [countCharsGo]
  cases hk : utf8DecodeLen (b :: t) with
  | none => rfl
  | some k =>
    have h1 : 1 ≤ k := utf8DecodeLen_pos hk
    show 1 + countCharsGo t.length ((b :: t).drop k) =
      1 + countCharsGo ((b :: t).drop k).length ((b :: t).drop k)
    rw [countCharsGo_fuel (by simp; omega) (le_refl _)]

/-- Step equation for `utf8_count_chars?` on a nonempty buffer. -/
theorem utf8_count_chars_step {b : Nat} {t : List Nat} :
    utf8_count_chars? (b :: t) =
      (match utf8DecodeLen (b :: t) with
       | some k => (utf8_count_chars? ((b :: t).drop k)).map (· + 1)
       | none => none) := by
  show utf8CountGo (t.length + 1) (b :: t) = _
  simp only [utf8CountGo]
  cases hk : utf8DecodeLen (b :: t) with
  | none => rfl
  | some k =>
    have h1 : 1 ≤ k := utf8DecodeLen_pos hk
    show (utf8CountGo t.length ((b :: t).drop k)).map (· + 1) =
      (utf8CountGo ((b :: t).drop k).length ((b :: t).drop k)).map (· + 1)
    rw [utf8CountGo_fuel (by simp; omega) (le_refl _)]

/-- Step equation for `utf8_groups?` on a nonempty buffer. -/
theorem utf8_groups_step {b : Nat} {t : List Nat} :
    utf8_groups? (b :: t) =
      (match utf8DecodeLen (b :: t) with
       | some k => (utf8_groups? ((b :: t).drop k)).map ((b :: t).take k :: ·)
       | none => none) := by
  show utf8GroupsGo (t.length + 1) (b :: t) = _
  simp only [utf8GroupsGo]
  cases hk : utf8DecodeLen (b :: t) with
  | none => rfl
  | some k =>
    have h1 : 1 ≤ k := utf8DecodeLen_pos hk
    show (utf8GroupsGo t.length ((b :: t).drop k)).map ((b :: t).take k :: ·) =
      (utf8GroupsGo ((b :: t).drop k).length ((b :: t).drop k)).map
        ((b :: t).take k :: ·)
    rw [utf8GroupsGo_fuel (by simp; omega) (le_refl _)]

/-! ## Codepoint groups

Proof-side theory: a valid buffer splits into the list of byte groups of its
codepoints; counting and offset computations become `take`/`drop`/`flatten`
manipulations of that list. -/

/-- Each member of a group list is exactly the byte sequence of one
codepoint. -/
def IsGroups (gs : List (List Nat)) : Prop :=
  ∀ g ∈ gs, utf8DecodeLen g = some g.length

theorem isGroups_nil : IsGroups [] := by
  intro g hg
  simp at hg

theorem isGroups_cons {g : List Nat} {gs : List (List Nat)} :
    IsGroups (g :: gs) ↔ utf8DecodeLen g = some g.length ∧ IsGroups gs := by
  simp [IsGroups]

theorem isGroups_append {ga gb : List (List Nat)} :
    IsGroups (ga ++ gb) ↔ IsGroups ga ∧ IsGroups gb := by
  simp [IsGroups, or_imp, forall_and]

theorem isGroups_take {gs : List (List Nat)} (p : Nat) (h : IsGroups gs) :
    IsGroups (gs.take p) := by
  intro g hg
  exact h g (List.mem_of_mem_take hg)

theorem isGroups_drop {gs : List (List Nat)} (p : Nat) (h : IsGroups gs) :
    IsGroups (gs.drop p) := by
  intro g hg
  exact h g (List.mem_of_mem_drop hg)

/-- Destructing a successful group decomposition. -/
theorem utf8_groups_cons_elim {l : List Nat} {g : List Nat}
    {gs : List (List Nat)} (h : utf8_groups? l = some (g :: gs)) :
    utf8DecodeLen l = some g.length ∧ g = l.take g.length ∧
      utf8_groups? (l.drop g.length) = some gs := by
  match l with
  | [] =>
    simp [utf8_groups?, utf8GroupsGo] at h
  | b :: t =>
    rw [utf8_groups_step] at h
    cases hk : utf8DecodeLen (b :: t) with
    | none =>
      rw [hk] at h
      exact Option.noConfusion h
    | some k =>
      rw [hk] at h
      have h2 : Option.map ((b :: t).take k :: ·)
          (utf8_groups? ((b :: t).drop k)) = some (g :: gs) := h
      rw [Option.map_eq_some'] at h2
      obtain ⟨gs2, hg, heq⟩ := h2
      simp only [List.cons.injEq] at heq
      obtain ⟨hgk, hgs⟩ := heq
      have hkl : k ≤ (b :: t).length := utf8DecodeLen_le_length hk
      simp only [List.length_cons] at hkl
      have hlen : g.length = k := by
        rw [← hgk, List.length_take, List.length_cons]
        omega
      subst hgs
      rw [hlen]
      exact ⟨rfl, hgk.symm, hg⟩

/-- A successful group decomposition flattens back to the buffer. -/
theorem utf8_groups_flatten {l : List Nat} {gs : List (List Nat)}
    (h : utf8_groups? l = some gs) : gs.flatten = l := by
  induction gs generalizing l with
  | nil =>
    match l with
    | [] => rfl
    | b :: t =>
      rw [utf8_groups_step] at h
      cases hk : utf8DecodeLen (b :: t) with
      | none =>
        rw [hk] at h
        exact Option.noConfusion h
      | some k =>
        rw [hk] at h
        have h2 : Option.map ((b :: t).take k :: ·)
            (utf8_groups? ((b :: t).drop k)) = some [] := h
        rw [Option.map_eq_some'] at h2
        obtain ⟨gs2, hg, heq⟩ := h2
        exact absurd heq (by simp)
  | cons g gs ih =>
    obtain ⟨hdec, hg, hrest⟩ := utf8_groups_cons_elim h
    show g ++ gs.flatten = l
    rw [ih hrest]
    nth_rewrite 1 [hg]
    exact List.take_append_drop _ _

/-- The groups of a valid buffer are each a whole codepoint. -/
theorem utf8_groups_isGroups {l : List Nat} {gs : List (List Nat)}
    (h : utf8_groups? l = some gs) : IsGroups gs := by
  induction gs generalizing l with
  | nil => exact isGroups_nil
  | cons g gs ih =>
    obtain ⟨hdec, hg, hrest⟩ := utf8_groups_cons_elim h
    rw [isGroups_cons]
    refine ⟨?_, ih hrest⟩
    have h2 := utf8DecodeLen_take_append [] hdec
    rw [List.append_nil] at h2
    have hle : g.length ≤ l.length := utf8DecodeLen_le_length hdec
    have hlen2 : (l.take g.length).length = g.length := by
      rw [List.length_take]
      omega
    rw [hg, hlen2]
    exact h2

/-- Prepending one whole codepoint to a buffer prepends its group. -/
theorem utf8_groups_cons_intro {g rest : List Nat}
    (hg : utf8DecodeLen g = some g.length) :
    utf8_groups? (g ++ rest) = (utf8_groups? rest).map (g :: ·) := by
  have h1 : 1 ≤ g.length := utf8DecodeLen_pos hg
  match g, h1 with
  | b :: t, _ =>
    have hdec : utf8DecodeLen ((b :: t) ++ rest) = some (b :: t).length := by
      have h2 := utf8DecodeLen_take_append rest hg
      rw [List.take_length] at h2
      exact h2
    have htake : ((b :: t) ++ rest).take (b :: t).length = b :: t :=
      List.take_left _ _
    have hdrop : ((b :: t) ++ rest).drop (b :: t).length = rest :=
      List.drop_left _ _
    rw [List.cons_append] at hdec htake hdrop
    rw [List.cons_append, utf8_groups_step, hdec]
    show Option.map ((b :: (t ++ rest)).take (b :: t).length :: ·)
        (utf8_groups? ((b :: (t ++ rest)).drop (b :: t).length)) = _
    rw [htake, hdrop]

/-- Group decompositions concatenate. -/
theorem utf8_groups_append {a b : List Nat} {ga gb : List (List Nat)}
    (ha : utf8_groups? a = some ga) (hb : utf8_groups? b = some gb) :
    utf8_groups? (a ++ b) = some (ga ++ gb) := by
  induction ga generalizing a with
  | nil =>
    have : a = [] := by
      have := utf8_groups_flatten ha
      simpa using this.symm
    subst this
    simpa using hb
  | cons g gs ih =>
    obtain ⟨hdec, hg, hrest⟩ := utf8_groups_cons_elim ha
    have hgood : utf8DecodeLen g = some g.length :=
      utf8_groups_isGroups ha g (List.mem_cons_self _ _)
    have hsplit : a = g ++ a.drop g.length := by
      nth_rewrite 1 [← List.take_append_drop g.length a]
      rw [← hg]
    rw [hsplit, List.append_assoc, utf8_groups_cons_intro hgood, ih hrest]
    rfl

/-- A list of whole codepoints is the group decomposition of its
flattening. -/
theorem utf8_groups_of_isGroups {gs : List (List Nat)} (h : IsGroups gs) :
    utf8_groups? gs.flatten = some gs := by
  induction gs with
  | nil => rfl
  | cons g t ih =>
    rw [isGroups_cons] at h
    rw [List.flatten_cons, utf8_groups_cons_intro h.1, ih h.2]
    rfl

/-- `count_chars` counts the groups of a valid buffer. -/
theorem count_chars_of_groups {l : List Nat} {gs : List (List Nat)}
    (h : utf8_groups? l = some gs) : count_chars l = gs.length := by
  induction gs generalizing l with
  | nil =>
    have : l = [] := by simpa using (utf8_groups_flatten h).symm
    subst this
    rfl
  | cons g gs ih =>
    obtain ⟨hdec, hg, hrest⟩ := utf8_groups_cons_elim h
    have h1 : 1 ≤ g.length := utf8DecodeLen_pos hdec
    match l, utf8DecodeLen_le_length hdec, h1 with
    | b :: t, _, _ =>
      rw [count_chars_step, hdec]
      show 1 + count_chars ((b :: t).drop g.length) = (g :: gs).length
      rw [ih hrest]
      simp [Nat.add_comm]

/-- The scanner reports the number of groups of a valid buffer. -/
theorem utf8_count_chars_of_groups {l : List Nat} {gs : List (List Nat)}
    (h : utf8_groups? l = some gs) : utf8_count_chars? l = some gs.length := by
  induction gs generalizing l with
  | nil =>
    have : l = [] := by simpa using (utf8_groups_flatten h).symm
    subst this
    rfl
  | cons g gs ih =>
    obtain ⟨hdec, hg, hrest⟩ := utf8_groups_cons_elim h
    have h1 : 1 ≤ g.length := utf8DecodeLen_pos hdec
    match l, utf8DecodeLen_le_length hdec, h1 with
    | b :: t, _, _ =>
      rw [utf8_count_chars_step, hdec]
      show Option.map (· + 1)
        (utf8_count_chars? ((b :: t).drop g.length)) = some (g :: gs).length
      rw [ih hrest]
      simp

/-- A buffer the scanner accepts has a group decomposition. -/
theorem utf8_groups_of_count {l : List Nat} {n : Nat}
    (h : utf8_count_chars? l = some n) :
    ∃ gs, utf8_groups? l = some gs ∧ gs.length = n := by
  have H : ∀ len (l : List Nat) (n : Nat), l.length = len →
      utf8_count_chars? l = some n →
      ∃ gs, utf8_groups? l = some gs ∧ gs.length = n := by
    intro len
    induction len using Nat.strong_induction_on with
    | _ len ih =>
      intro l n hl h
      match l with
      | [] =>
        refine ⟨[], rfl, ?_⟩
        have h2 : (some 0 : Option Nat) = some n := h
        cases h2
        rfl
      | b :: t =>
        rw [utf8_count_chars_step] at h
        cases hk : utf8DecodeLen (b :: t) with
        | none =>
          rw [hk] at h
          exact Option.noConfusion h
        | some k =>
          rw [hk] at h
          have h2 : Option.map (· + 1) (utf8_count_chars? ((b :: t).drop k)) =
              some n := h
          rw [Option.map_eq_some'] at h2
          obtain ⟨m, hm, hmn⟩ := h2
          have h1 : 1 ≤ k := utf8DecodeLen_pos hk
          obtain ⟨gs, hgs, hlen⟩ :=
            ih ((b :: t).drop k).length (by subst hl; simp; omega) _ _ rfl hm
          refine ⟨(b :: t).take k :: gs, ?_, ?_⟩
          · rw [utf8_groups_step, hk]
            show Option.map ((b :: t).take k :: ·)
              (utf8_groups? ((b :: t).drop k)) = _
            rw [hgs]
            rfl
          · simp [hlen, hmn]
  exact H l.length l n rfl h

/-- `chars_to_bytes` computes flattened-prefix lengths of the group view. -/
theorem chars_to_bytes_of_groups {l : List Nat} {gs : List (List Nat)}
    (h : utf8_groups? l = some gs) (n : Nat) :
    chars_to_bytes l n = ((gs.take n).flatten).length := by
  induction n generalizing l gs with
  | zero => rfl
  | succ n ih =>
    cases gs with
    | nil =>
      have : l = [] := by simpa using (utf8_groups_flatten h).symm
      subst this
      rfl
    | cons g gs =>
      obtain ⟨hdec, hg, hrest⟩ := utf8_groups_cons_elim h
      show (match utf8DecodeLen l with
            | some k => k + chars_to_bytes (l.drop k) n
            | none => 0) = _
      rw [hdec]
      show g.length + chars_to_bytes (l.drop g.length) n = _
      rw [ih hrest]
      simp

/-- Flattened prefixes never exceed the full flattened length. -/
theorem flatten_take_length_le (gs : List (List Nat)) (p : Nat) :
    ((gs.take p).flatten).length ≤ gs.flatten.length := by
  induction gs generalizing p with
  | nil => simp
  | cons g t ih =>
    cases p with
    | zero => simp
    | succ p =>
      simp only [List.take_succ_cons, List.flatten_cons, List.length_append]
      exact Nat.add_le_add_left (ih p) _

/-- `chars_to_bytes` never exceeds the byte length. -/
theorem chars_to_bytes_le_length {l : List Nat} {gs : List (List Nat)}
    (h : utf8_groups? l = some gs) (n : Nat) :
    chars_to_bytes l n ≤ l.length := by
  rw [chars_to_bytes_of_groups h n]
  calc ((gs.take n).flatten).length ≤ gs.flatten.length :=
        flatten_take_length_le gs n
    _ = l.length := by rw [utf8_groups_flatten h]

/-- `chars_to_bytes` is monotone in the character offset. -/
theorem chars_to_bytes_mono {l : List Nat} {gs : List (List Nat)}
    (h : utf8_groups? l = some gs) {p q : Nat} (hpq : p ≤ q) :
    chars_to_bytes l p ≤ chars_to_bytes l q := by
  rw [chars_to_bytes_of_groups h p, chars_to_bytes_of_groups h q]
  have : gs.take p = (gs.take q).take p := by
    rw [List.take_take, Nat.min_eq_left hpq]
  rw [this]
  exact flatten_take_length_le (gs.take q) p

/-- Taking at a character boundary takes whole groups. -/
theorem take_chars_to_bytes {l : List Nat} {gs : List (List Nat)}
    (h : utf8_groups? l = some gs) (p : Nat) :
    l.take (chars_to_bytes l p) = (gs.take p).flatten := by
  have hsplit : (gs.take p).flatten ++ (gs.drop p).flatten = l := by
    rw [← List.flatten_append, List.take_append_drop]
    exact utf8_groups_flatten h
  rw [chars_to_bytes_of_groups h p, ← hsplit]
  exact List.take_left _ _

/-- Dropping at a character boundary drops whole groups. -/
theorem drop_chars_to_bytes {l : List Nat} {gs : List (List Nat)}
    (h : utf8_groups? l = some gs) (p : Nat) :
    l.drop (chars_to_bytes l p) = (gs.drop p).flatten := by
  have hsplit : (gs.take p).flatten ++ (gs.drop p).flatten = l := by
    rw [← List.flatten_append, List.take_append_drop]
    exact utf8_groups_flatten h
  rw [chars_to_bytes_of_groups h p, ← hsplit]
  exact List.drop_left _ _

/-- At (or beyond) the full character count the byte offset is the byte
length. -/
theorem chars_to_bytes_full {l : List Nat} {gs : List (List Nat)}
    (h : utf8_groups? l = some gs) {n : Nat} (hn : gs.length ≤ n) :
    chars_to_bytes l n = l.length := by
  rw [chars_to_bytes_of_groups h n, List.take_of_length_le hn,
    utf8_groups_flatten h]

/-! ## Data model (`rope.h` lines 38–77)

`rope_node` is modelled by its byte buffer (`str`; the header's `num_bytes`
is its length) together with its level-0 skip entry's `skip_size`
(`nexts[0].skip_size`, which the header documents as the number of
characters in `str`).  Heights and the sparser levels `L > 0` are the search
accelerator; they carry no logical content at level 0 and are treated by the
height generator model below.  `rope` carries the aggregate `num_chars` and
`num_bytes` and the level-0 chain of segments, head first (the head is
embedded in the container and always present).  Allocator hooks are not
represented: allocation never fails in the model. -/

structure rope_node where
  str : List Nat
  skip_size : Nat
  deriving DecidableEq

structure rope where
  num_chars : Nat
  num_bytes : Nat
  nodes : List rope_node
  deriving DecidableEq

/-- `ROPE_RESULT` from `rope.h` line 120. -/
inductive ROPE_RESULT where
  | ROPE_OK : ROPE_RESULT
  | ROPE_INVALID_UTF8 : ROPE_RESULT
  deriving DecidableEq

export ROPE_RESULT (ROPE_OK ROPE_INVALID_UTF8)

/-- `rope_new` (`rope.h` line 84): a rope with no contents — zero counts and
the embedded head segment, empty.  `rope_new2` differs only in the allocator
hooks, which the model does not represent. -/
def rope_new : rope := ⟨0, 0, [⟨[], 0⟩]⟩

/-- `rope_char_count` (`rope.h` line 102). -/
def rope_char_count (r : rope) : Nat := r.num_chars

/-- `rope_byte_count` (`rope.h` line 106). -/
def rope_byte_count (r : rope) : Nat := r.num_bytes

/-- `rope_node_data` (`rope.h` line 141). -/
def rope_node_data (nd : rope_node) : List Nat := nd.str

/-- `rope_node_num_bytes` (`rope.h` line 147). -/
def rope_node_num_bytes (nd : rope_node) : Nat := nd.str.length

/-- `rope_node_chars` (`rope.h` line 152): read out of `nexts[0].skip_size`. -/
def rope_node_chars (nd : rope_node) : Nat := nd.skip_size

/-- The logical byte string of a rope: the segment buffers in level-0
order, concatenated (no sentinel). -/
def rope_content (r : rope) : List Nat := (r.nodes.map rope_node.str).flatten

/-- `to_utf8` of spec §6: the materialized, sentinel-terminated string. -/
def rope_to_utf8 (r : rope) : List Nat := rope_content r ++ [0]

/-- `rope_write_cstr` (`rope.h` lines 108–111).  Modelled from the spec
(§4.6: materialize the full logical string, always sentinel-terminated,
returning the exact byte count written): the pair of the bytes placed in
`dest` and the returned count. -/
def rope_write_cstr (r : rope) : List Nat × Nat :=
  let written := (r.nodes.map rope_node.str).flatten ++ [0]
  (written, written.length)

/-- `rope_create_cstr` (`rope.h` lines 113–116).  Modelled from the spec:
allocates and fills a fresh buffer via the same materialization. -/
def rope_create_cstr (r : rope) : List Nat := (rope_write_cstr r).1

/-! ## Insertion (spec §4.3)

Modelled from the spec; `rope.c` is not in the source tree.  The position
resolver walk (§4.2) over the level-0 chain compares the remaining character
offset against each segment's `skip_size` and stops at the first segment
containing it; the in-segment byte offset counts codepoint boundaries in the
buffer.  Splicing, capacity splits and the chunking of long insertions
follow §4.3.  Walking past the end of the chain (`pos` beyond the rope's
character count) is the §7 precondition violation: the model yields `none`
(the original neither clamps the insertion position nor defines a result
there). -/

/-- Fueled worker for `chunk_take`: greedily take whole codepoints while at
most `cap` bytes are taken. -/
def chunkTakeGo : Nat → Nat → List Nat → List Nat × List Nat
  | 0, _, l => ([], l)
  | _, _, [] => ([], [])
  | f + 1, cap, l =>
    match utf8DecodeLen l with
    | some k =>
      if k ≤ cap then
        let p := chunkTakeGo f (cap - k) (l.drop k)
        (l.take k ++ p.1, p.2)
      else ([], l)
    | none => ([], l)

/-- Longest codepoint-complete prefix of at most `cap` bytes, with the
remainder. -/
def chunk_take (cap : Nat) (l : List Nat) : List Nat × List Nat :=
  chunkTakeGo cap cap l

/-- Fueled worker for `chunk_nodes`. -/
def chunkNodesGo : Nat → List Nat → List rope_node
  | _, [] => []
  | 0, _ :: _ => []
  | f + 1, b :: t =>
    let p := chunk_take ROPE_NODE_STR_SIZE (b :: t)
    if p.1.isEmpty then []
    else ⟨p.1, count_chars p.1⟩ :: chunkNodesGo f p.2

/-- Chunk a long insertion into new segments, each at most
`ROPE_NODE_STR_SIZE` bytes and each starting (and ending) on a codepoint
boundary (spec §4.3). -/
def chunk_nodes (l : List Nat) : List rope_node := chunkNodesGo l.length l

/-- Insert `str` (of character count `n`) at character offset `pos` of the
located segment: splice if there is spare capacity, else split at the byte
offset and, if the text still does not fit, chunk it into fresh segments
(spec §4.3). -/
def ins_in_node (nd : rope_node) (pos : Nat) (str : List Nat) (n : Nat) :
    List rope_node :=
  let b := chars_to_bytes nd.str pos
  if nd.str.length + str.length ≤ ROPE_NODE_STR_SIZE then
    [⟨nd.str.take b ++ str ++ nd.str.drop b, nd.skip_size + n⟩]
  else
    let s1 := nd.str.take b
    let s2 := nd.str.drop b
    let tail : List rope_node :=
      if s2.isEmpty then [] else [⟨s2, nd.skip_size - pos⟩]
    if s1.length + str.length ≤ ROPE_NODE_STR_SIZE then
      ⟨s1 ++ str, pos + n⟩ :: tail
    else
      ⟨s1, pos⟩ :: (chunk_nodes str ++ tail)

/-- The level-0 walk of the position resolver combined with the in-segment
splice: locate the segment containing character offset `pos` and insert
there; `none` when the walk runs off the end of the chain. -/
def ins_nodes : List rope_node → Nat → List Nat → Nat →
    Option (List rope_node)
  | [], _, _, _ => none
  | nd :: rest, pos, str, n =>
    if pos ≤ nd.skip_size then some (ins_in_node nd pos str n ++ rest)
    else (ins_nodes rest (pos - nd.skip_size) str n).map (nd :: ·)

/-- `rope_insert` (`rope.h` lines 122–123).  Modelled from the spec: the
scanner validates (and counts) the caller's bytes first; on malformed input
the result is `ROPE_INVALID_UTF8` with the rope untouched; otherwise the
bytes are inserted at character position `pos` and the aggregate counts
updated.  `none` models the §7 precondition violation `pos > num_chars`. -/
def rope_insert (r : rope) (pos : Nat) (str : List Nat) :
    Option (ROPE_RESULT × rope) :=
  match utf8_count_chars? str with
  | none => some (ROPE_INVALID_UTF8, r)
  | some n =>
    match ins_nodes r.nodes pos str n with
    | none => none
    | some nodes2 =>
      some (ROPE_OK, ⟨r.num_chars + n, r.num_bytes + str.length, nodes2⟩)

/-! ## Deletion (spec §4.4)

Modelled from the spec: walk to the first affected segment, remove the
overlapping portion of each segment's buffer until `num` characters have
been removed or the rope ends (silently clamping), unlink segments emptied
entirely (except the embedded head), and return the character and byte
totals actually removed so the container can decrement its counts. -/

/-- Level-0 deletion walk.  Returns the new chain together with the number
of characters and bytes removed. -/
def del_nodes : Bool → List rope_node → Nat → Nat →
    List rope_node × Nat × Nat
  | _, [], _, _ => ([], 0, 0)
  | isHead, nd :: rest, pos, num =>
    if num = 0 then (nd :: rest, 0, 0)
    else if nd.skip_size ≤ pos then
      let p := del_nodes false rest (pos - nd.skip_size) num
      (nd :: p.1, p.2)
    else
      let k := min num (nd.skip_size - pos)
      let b1 := chars_to_bytes nd.str pos
      let b2 := chars_to_bytes nd.str (pos + k)
      let str2 := nd.str.take b1 ++ nd.str.drop b2
      let p := del_nodes false rest 0 (num - k)
      if str2.isEmpty && !isHead then (p.1, k + p.2.1, (b2 - b1) + p.2.2)
      else (⟨str2, nd.skip_size - k⟩ :: p.1, k + p.2.1, (b2 - b1) + p.2.2)

/-- `rope_del` (`rope.h` lines 125–127): delete `num` characters at position
`pos`; deleting past the end of the string has no effect (the header's
documented clamping). -/
def rope_del (r : rope) (pos num : Nat) : rope :=
  let p := del_nodes true r.nodes pos num
  ⟨r.num_chars - p.2.1, r.num_bytes - p.2.2, p.1⟩

/-- `rope_copy` (`rope.h` lines 95–96).  Modelled from the spec (§4.6 deep
copy): every segment is duplicated; in the functional model this rebuilds
the same value.  (Heap-level storage disjointness is treated by the arena
model below.) -/
def rope_copy (r : rope) : rope :=
  ⟨r.num_chars, r.num_bytes, r.nodes.map (fun nd => ⟨nd.str, nd.skip_size⟩)⟩

/-- `rope_new_with_utf8` (`rope.h` lines 91–93): shorthand for
`r = rope_new(); rope_insert(r, 0, str)`; no rope results from malformed
input (spec §4.6). -/
def rope_new_with_utf8 (str : List Nat) : Option rope :=
  match rope_insert rope_new 0 str with
  | some (ROPE_OK, r) => some r
  | _ => none

/-! ## Well-formedness and reachability -/

/-- Sum of per-segment character counts. -/
def totalChars (ns : List rope_node) : Nat :=
  (ns.map (fun nd => count_chars nd.str)).sum

/-- Sum of per-segment byte counts. -/
def totalBytes (ns : List rope_node) : Nat :=
  (ns.map (fun nd => nd.str.length)).sum

/-- Concatenation of the segment buffers of a chain. -/
def joinStrs (ns : List rope_node) : List Nat :=
  (ns.map rope_node.str).flatten

/-- Per-segment invariant (spec §3): the buffer is a whole number of
codepoints (it never ends inside a multi-byte sequence), fits the fixed
capacity, and the level-0 `skip_size` is the segment's own character
count. -/
def nodeWf (nd : rope_node) : Prop :=
  (utf8_groups? nd.str).isSome = true ∧
    nd.str.length ≤ ROPE_NODE_STR_SIZE ∧
    nd.skip_size = count_chars nd.str

/-- Container invariant (spec §3): the head segment is present, every
segment satisfies `nodeWf`, and the aggregate counts are the sums over all
segments. -/
def ropeWf (r : rope) : Prop :=
  r.nodes ≠ [] ∧ (∀ nd ∈ r.nodes, nodeWf nd) ∧
    r.num_chars = totalChars r.nodes ∧ r.num_bytes = totalBytes r.nodes

instance : DecidablePred nodeWf := fun nd => by
  unfold nodeWf
  infer_instance

instance (r : rope) : Decidable (ropeWf r) := by
  unfold ropeWf
  infer_instance

/-- The ropes reachable by sequences of public operations.  The `insert`
constructor requires the call to return a result, which excludes exactly the
§7 precondition-violating calls (`pos > num_chars` with valid input);
`rope_new_with_utf8` is literally `rope_new` followed by `rope_insert` and
is covered by those constructors. -/
inductive Reachable : rope → Prop where
  | new : Reachable rope_new
  | insert {r : rope} {pos : Nat} {str : List Nat} {res : ROPE_RESULT}
      {r2 : rope} : Reachable r → rope_insert r pos str = some (res, r2) →
      Reachable r2
  | del {r : rope} (pos num : Nat) : Reachable r → Reachable (rope_del r pos num)
  | copy {r : rope} : Reachable r → Reachable (rope_copy r)

/-! ## Basic chain lemmas -/

theorem joinStrs_nil : joinStrs [] = [] := rfl

theorem joinStrs_cons (nd : rope_node) (rest : List rope_node) :
    joinStrs (nd :: rest) = nd.str ++ joinStrs rest := by
  simp [joinStrs]

theorem totalChars_cons (nd : rope_node) (rest : List rope_node) :
    totalChars (nd :: rest) = count_chars nd.str + totalChars rest := by
  simp [totalChars]

theorem totalBytes_cons (nd : rope_node) (rest : List rope_node) :
    totalBytes (nd :: rest) = nd.str.length + totalBytes rest := by
  simp [totalBytes]

theorem joinStrs_append (a b : List rope_node) :
    joinStrs (a ++ b) = joinStrs a ++ joinStrs b := by
  simp [joinStrs]

theorem totalChars_append (a b : List rope_node) :
    totalChars (a ++ b) = totalChars a + totalChars b := by
  simp [totalChars]

theorem totalBytes_append (a b : List rope_node) :
    totalBytes (a ++ b) = totalBytes a + totalBytes b := by
  simp [totalBytes]

/-- The whole-chain decomposition of a well-formed chain. -/
theorem joinStrs_groups {ns : List rope_node} (h : ∀ nd ∈ ns, nodeWf nd) :
    ∃ gs, utf8_groups? (joinStrs ns) = some gs ∧
      gs.length = totalChars ns := by
  induction ns with
  | nil => exact ⟨[], rfl, rfl⟩
  | cons nd rest ih =>
    rw [List.forall_mem_cons] at h
    obtain ⟨gs2, hg2, hl2⟩ := ih h.2
    obtain ⟨gs1, hg1⟩ := Option.isSome_iff_exists.mp h.1.1
    refine ⟨gs1 ++ gs2, ?_, ?_⟩
    · rw [joinStrs_cons]
      exact utf8_groups_append hg1 hg2
    · rw [List.length_append, totalChars_cons, hl2,
        count_chars_of_groups hg1]

/-! ## Chunking lemmas -/

theorem chunkTakeGo_zero (cap : Nat) (l : List Nat) :
    chunkTakeGo 0 cap l = ([], l) := by
  cases l <;> rfl

theorem chunkTakeGo_nil (f cap : Nat) : chunkTakeGo f cap [] = ([], []) := by
  cases f <;> rfl

/-- Step equation for `chunkTakeGo` when a codepoint decodes. -/
theorem chunkTakeGo_step_some {k b : Nat} {t : List Nat} (f cap : Nat)
    (hk : utf8DecodeLen (b :: t) = some k) :
    chunkTakeGo (f + 1) cap (b :: t) =
      if k ≤ cap then
        ((b :: t).take k ++ (chunkTakeGo f (cap - k) ((b :: t).drop k)).1,
          (chunkTakeGo f (cap - k) ((b :: t).drop k)).2)
      else ([], b :: t) := by
  show (match utf8DecodeLen (b :: t) with
    | some k =>
      if k ≤ cap then
        ((b :: t).take k ++ (chunkTakeGo f (cap - k) ((b :: t).drop k)).1,
          (chunkTakeGo f (cap - k) ((b :: t).drop k)).2)
      else ([], b :: t)
    | none => ([], b :: t)) = _
  rw [hk]

/-- The chunk boundary falls on a group boundary. -/
theorem chunkTakeGo_groups : ∀ (f cap : Nat) {l : List Nat}
    {gs : List (List Nat)}, utf8_groups? l = some gs →
    ∃ j, (chunkTakeGo f cap l).1 = (gs.take j).flatten ∧
      (chunkTakeGo f cap l).2 = (gs.drop j).flatten := by
  intro f
  induction f with
  | zero =>
    intro cap l gs h
    rw [chunkTakeGo_zero]
    exact ⟨0, rfl, by simpa using (utf8_groups_flatten h).symm⟩
  | succ f ih =>
    intro cap l gs h
    match l with
    | [] =>
      have hgs : gs = [] := by
        have h0 : (some [] : Option (List (List Nat))) = some gs := h
        cases h0
        rfl
      subst hgs
      rw [chunkTakeGo_nil]
      exact ⟨0, rfl, rfl⟩
    | b :: t =>
      cases gs with
      | nil =>
        have := utf8_groups_flatten h
        simp at this
      | cons g gs2 =>
        obtain ⟨hdec, hg, hrest⟩ := utf8_groups_cons_elim h
        rw [chunkTakeGo_step_some f cap hdec]
        by_cases hc : g.length ≤ cap
        · rw [if_pos hc]
          obtain ⟨j, hj1, hj2⟩ := ih (cap - g.length) hrest
          refine ⟨j + 1, ?_, ?_⟩
          · simp only [List.take_succ_cons, List.flatten_cons]
            rw [hj1, ← hg]
          · simpa using hj2
        · rw [if_neg hc]
          refine ⟨0, rfl, ?_⟩
          simpa using (utf8_groups_flatten h).symm

/-- A nonempty valid buffer yields a nonempty chunk whenever at least four
bytes of capacity remain. -/
theorem chunk_take_ne_nil {b : Nat} {t : List Nat} {gs : List (List Nat)}
    {cap : Nat} (hcap : 4 ≤ cap) (h : utf8_groups? (b :: t) = some gs) :
    (chunk_take cap (b :: t)).1 ≠ [] := by
  cases gs with
  | nil =>
    have := utf8_groups_flatten h
    simp at this
  | cons g gs2 =>
    obtain ⟨hdec, hg, hrest⟩ := utf8_groups_cons_elim h
    have hk4 : g.length ≤ 4 := utf8DecodeLen_le_four hdec
    have hk1 : 1 ≤ g.length := utf8DecodeLen_pos hdec
    obtain ⟨cap2, rfl⟩ : ∃ c, cap = c + 1 := ⟨cap - 1, by omega⟩
    show (chunkTakeGo (cap2 + 1) (cap2 + 1) (b :: t)).1 ≠ []
    rw [chunkTakeGo_step_some cap2 (cap2 + 1) hdec, if_pos (by omega)]
    show (b :: t).take g.length ++
      (chunkTakeGo cap2 (cap2 + 1 - g.length) ((b :: t).drop g.length)).1 ≠ []
    simp only [ne_eq, List.append_eq_nil, not_and]
    intro htake
    have h0 : ((b :: t).take g.length).length = 0 := by rw [htake]; rfl
    simp only [List.length_take, List.length_cons] at h0
    omega

/-- Step equation for `chunkTakeGo` when no codepoint decodes. -/
theorem chunkTakeGo_step_none {b : Nat} {t : List Nat} (f cap : Nat)
    (hk : utf8DecodeLen (b :: t) = none) :
    chunkTakeGo (f + 1) cap (b :: t) = ([], b :: t) := by
  show (match utf8DecodeLen (b :: t) with
    | some k =>
      if k ≤ cap then
        ((b :: t).take k ++ (chunkTakeGo f (cap - k) ((b :: t).drop k)).1,
          (chunkTakeGo f (cap - k) ((b :: t).drop k)).2)
      else ([], b :: t)
    | none => ([], b :: t)) = _
  rw [hk]

theorem chunkTakeGo_parts (f : Nat) : ∀ (cap : Nat) (l : List Nat),
    (chunkTakeGo f cap l).1 ++ (chunkTakeGo f cap l).2 = l := by
  induction f with
  | zero =>
    intro cap l
    rw [chunkTakeGo_zero]
    rfl
  | succ f ih =>
    intro cap l
    match l with
    | [] => rw [chunkTakeGo_nil]; rfl
    | b :: t =>
      cases hk : utf8DecodeLen (b :: t) with
      | none => rw [chunkTakeGo_step_none f cap hk]; rfl
      | some k =>
        rw [chunkTakeGo_step_some f cap hk]
        by_cases hc : k ≤ cap
        · rw [if_pos hc]
          show ((b :: t).take k ++ _) ++ _ = b :: t
          rw [List.append_assoc, ih]
          exact List.take_append_drop _ _
        · rw [if_neg hc]
          rfl

theorem chunkTakeGo_len_le (f : Nat) : ∀ (cap : Nat) (l : List Nat),
    (chunkTakeGo f cap l).1.length ≤ cap := by
  induction f with
  | zero =>
    intro cap l
    rw [chunkTakeGo_zero]
    simp
  | succ f ih =>
    intro cap l
    match l with
    | [] => rw [chunkTakeGo_nil]; simp
    | b :: t =>
      cases hk : utf8DecodeLen (b :: t) with
      | none => rw [chunkTakeGo_step_none f cap hk]; simp
      | some k =>
        rw [chunkTakeGo_step_some f cap hk]
        by_cases hc : k ≤ cap
        · rw [if_pos hc]
          show ((b :: t).take k ++ _).length ≤ cap
          rw [List.length_append, List.length_take]
          have := ih (cap - k) ((b :: t).drop k)
          simp only [List.length_cons]
          omega
        · rw [if_neg hc]
          simp

theorem chunkNodesGo_fuel {f g : Nat} {l : List Nat}
    (hf : l.length ≤ f) (hg : l.length ≤ g) :
    chunkNodesGo f l = chunkNodesGo g l := by
  induction f using Nat.strong_induction_on generalizing g l with
  | _ f ih =>
    match l with
    | [] => cases f <;> cases g <;> rfl
    | b :: t =>
      cases f with
      | zero => simp at hf
      | succ f =>
        cases g with
        | zero => simp at hg
        | succ g =>
          simp only [chunkNodesGo]
          have hparts : (chunk_take ROPE_NODE_STR_SIZE (b :: t)).1 ++
              (chunk_take ROPE_NODE_STR_SIZE (b :: t)).2 = b :: t :=
            chunkTakeGo_parts _ _ _
          by_cases he : (chunk_take ROPE_NODE_STR_SIZE (b :: t)).1.isEmpty
          · rw [if_pos he, if_pos he]
          · rw [if_neg he, if_neg he]
            have hne : (chunk_take ROPE_NODE_STR_SIZE (b :: t)).1 ≠ [] := by
              simpa [List.isEmpty_iff] using he
            have hlen : (chunk_take ROPE_NODE_STR_SIZE (b :: t)).1.length +
                (chunk_take ROPE_NODE_STR_SIZE (b :: t)).2.length =
                t.length + 1 := by
              have : ((chunk_take ROPE_NODE_STR_SIZE (b :: t)).1 ++
                  (chunk_take ROPE_NODE_STR_SIZE (b :: t)).2).length =
                  (b :: t).length := by rw [hparts]
              simpa using this
            have hp1 : 1 ≤ (chunk_take ROPE_NODE_STR_SIZE (b :: t)).1.length := by
              cases hcc : (chunk_take ROPE_NODE_STR_SIZE (b :: t)).1 with
              | nil => exact absurd hcc hne
              | cons x xs => simp
            simp only [List.length_cons] at hf hg
            rw [ih f (by omega) (by omega) (g := g) (by omega)]

/-- Step equation for `chunk_nodes` on a nonempty buffer. -/
theorem chunk_nodes_step {b : Nat} {t : List Nat} :
    chunk_nodes (b :: t) =
      (if (chunk_take ROPE_NODE_STR_SIZE (b :: t)).1.isEmpty then []
       else (⟨(chunk_take ROPE_NODE_STR_SIZE (b :: t)).1,
             count_chars (chunk_take ROPE_NODE_STR_SIZE (b :: t)).1⟩ :
             rope_node) ::
         chunk_nodes (chunk_take ROPE_NODE_STR_SIZE (b :: t)).2) := by
  show chunkNodesGo (t.length + 1) (b :: t) = _
  simp only [chunkNodesGo]
  by_cases he : (chunk_take ROPE_NODE_STR_SIZE (b :: t)).1.isEmpty
  · rw [if_pos he, if_pos he]
  · rw [if_neg he, if_neg he]
    have hne : (chunk_take ROPE_NODE_STR_SIZE (b :: t)).1 ≠ [] := by
      simpa [List.isEmpty_iff] using he
    have hparts : (chunk_take ROPE_NODE_STR_SIZE (b :: t)).1 ++
        (chunk_take ROPE_NODE_STR_SIZE (b :: t)).2 = b :: t :=
      chunkTakeGo_parts _ _ _
    have hlen : (chunk_take ROPE_NODE_STR_SIZE (b :: t)).1.length +
        (chunk_take ROPE_NODE_STR_SIZE (b :: t)).2.length = t.length + 1 := by
      have : ((chunk_take ROPE_NODE_STR_SIZE (b :: t)).1 ++
          (chunk_take ROPE_NODE_STR_SIZE (b :: t)).2).length =
          (b :: t).length := by rw [hparts]
      simpa using this
    have hp1 : 1 ≤ (chunk_take ROPE_NODE_STR_SIZE (b :: t)).1.length := by
      cases hcc : (chunk_take ROPE_NODE_STR_SIZE (b :: t)).1 with
      | nil => exact absurd hcc hne
      | cons x xs => simp
    rw [chunkNodesGo_fuel (f := t.length) (by omega) (le_refl _)]
    rfl

/-- Correctness of the chunking of a long insertion (spec §4.3): the chunks
flatten back to the inserted bytes, each chunk is a well-formed segment, and
the chunk totals are the character and byte counts of the inserted bytes. -/
theorem chunk_nodes_ok {l : List Nat} {gs : List (List Nat)}
    (h : utf8_groups? l = some gs) :
    joinStrs (chunk_nodes l) = l ∧ (∀ nd ∈ chunk_nodes l, nodeWf nd) ∧
      totalChars (chunk_nodes l) = gs.length ∧
      totalBytes (chunk_nodes l) = l.length := by
  have H : ∀ (len : Nat) (l : List Nat) (gs : List (List Nat)),
      l.length = len → utf8_groups? l = some gs →
      joinStrs (chunk_nodes l) = l ∧ (∀ nd ∈ chunk_nodes l, nodeWf nd) ∧
        totalChars (chunk_nodes l) = gs.length ∧
        totalBytes (chunk_nodes l) = l.length := by
    intro len
    induction len using Nat.strong_induction_on with
    | _ len ih =>
      intro l gs hl h
      match l with
      | [] =>
        have hgs : gs = [] := by
          have h0 : (some [] : Option (List (List Nat))) = some gs := h
          cases h0
          rfl
        subst hgs
        refine ⟨rfl, ?_, rfl, rfl⟩
        intro nd hnd
        simp [chunk_nodes, chunkNodesGo] at hnd
      | b :: t =>
        obtain ⟨j, hj1, hj2⟩ :
            ∃ j, (chunk_take ROPE_NODE_STR_SIZE (b :: t)).1 =
                (gs.take j).flatten ∧
              (chunk_take ROPE_NODE_STR_SIZE (b :: t)).2 =
                (gs.drop j).flatten :=
          chunkTakeGo_groups ROPE_NODE_STR_SIZE ROPE_NODE_STR_SIZE h
        have hne : (chunk_take ROPE_NODE_STR_SIZE (b :: t)).1 ≠ [] :=
          chunk_take_ne_nil (by norm_num [ROPE_NODE_STR_SIZE]) h
        have hisg := utf8_groups_isGroups h
        have hg1 : utf8_groups? (chunk_take ROPE_NODE_STR_SIZE (b :: t)).1 =
            some (gs.take j) := by
          rw [hj1]
          exact utf8_groups_of_isGroups (isGroups_take j hisg)
        have hg2 : utf8_groups? (chunk_take ROPE_NODE_STR_SIZE (b :: t)).2 =
            some (gs.drop j) := by
          rw [hj2]
          exact utf8_groups_of_isGroups (isGroups_drop j hisg)
        have hparts : (chunk_take ROPE_NODE_STR_SIZE (b :: t)).1 ++
            (chunk_take ROPE_NODE_STR_SIZE (b :: t)).2 = b :: t :=
          chunkTakeGo_parts _ _ _
        have hlen : (chunk_take ROPE_NODE_STR_SIZE (b :: t)).1.length +
            (chunk_take ROPE_NODE_STR_SIZE (b :: t)).2.length =
            t.length + 1 := by
          have : ((chunk_take ROPE_NODE_STR_SIZE (b :: t)).1 ++
              (chunk_take ROPE_NODE_STR_SIZE (b :: t)).2).length =
              (b :: t).length := by rw [hparts]
          simpa using this
        have hp1 : 1 ≤ (chunk_take ROPE_NODE_STR_SIZE (b :: t)).1.length := by
          cases hcc : (chunk_take ROPE_NODE_STR_SIZE (b :: t)).1 with
          | nil => exact absurd hcc hne
          | cons x xs => simp
        simp only [List.length_cons] at hl
        obtain ⟨ihj, ihw, ihc, ihb⟩ :=
          ih (chunk_take ROPE_NODE_STR_SIZE (b :: t)).2.length
            (by omega) _ _ rfl hg2
        rw [chunk_nodes_step, if_neg (by simpa [List.isEmpty_iff] using hne)]
        refine ⟨?_, ?_, ?_, ?_⟩
        · rw [joinStrs_cons, ihj]
          exact hparts
        · intro nd hnd
          rcases List.mem_cons.mp hnd with hnd | hnd
          · subst hnd
            refine ⟨by rw [hg1]; rfl, ?_, rfl⟩
            exact chunkTakeGo_len_le ROPE_NODE_STR_SIZE ROPE_NODE_STR_SIZE _
          · exact ihw nd hnd
        · rw [totalChars_cons, ihc, count_chars_of_groups hg1]
          simp only [List.length_take, List.length_drop]
          omega
        · rw [totalBytes_cons, ihb]
          dsimp only
          simp only [List.length_cons]
          omega
  exact H l.length l gs rfl h

/-- A list of whole codepoints with empty flattening is empty. -/
theorem isGroups_flatten_nil {gs : List (List Nat)} (h : IsGroups gs)
    (hf : gs.flatten = []) : gs = [] := by
  cases gs with
  | nil => rfl
  | cons g t =>
    rw [isGroups_cons] at h
    have h1 : 1 ≤ g.length := utf8DecodeLen_pos h.1
    rw [List.flatten_cons, List.append_eq_nil] at hf
    rw [hf.1] at h1
    simp at h1

theorem joinStrs_singleton (nd : rope_node) : joinStrs [nd] = nd.str := by
  simp [joinStrs]

/-- Correctness of the in-segment insertion step (spec §4.3): splice,
capacity split, or split-and-chunk.  The produced sub-chain carries exactly
the original buffer with `str` spliced in at character offset `pos`, all its
segments are well formed, and its totals are the originals plus the inserted
counts. -/
theorem ins_in_node_ok {nd : rope_node} {gs gst : List (List Nat)}
    {pos : Nat} {str : List Nat}
    (hw : nodeWf nd) (hgs : utf8_groups? nd.str = some gs)
    (hpos : pos ≤ gs.length) (hstr : utf8_groups? str = some gst) :
    joinStrs (ins_in_node nd pos str gst.length) =
        (gs.take pos).flatten ++ str ++ (gs.drop pos).flatten ∧
      (∀ nd2 ∈ ins_in_node nd pos str gst.length, nodeWf nd2) ∧
      ins_in_node nd pos str gst.length ≠ [] ∧
      totalChars (ins_in_node nd pos str gst.length) =
        gs.length + gst.length ∧
      totalBytes (ins_in_node nd pos str gst.length) =
        nd.str.length + str.length := by
  have hskip : nd.skip_size = gs.length := by
    rw [hw.2.2, count_chars_of_groups hgs]
  have hble : chars_to_bytes nd.str pos ≤ nd.str.length :=
    chars_to_bytes_le_length hgs pos
  have htk : nd.str.take (chars_to_bytes nd.str pos) = (gs.take pos).flatten :=
    take_chars_to_bytes hgs pos
  have hdr : nd.str.drop (chars_to_bytes nd.str pos) = (gs.drop pos).flatten :=
    drop_chars_to_bytes hgs pos
  have hgt : utf8_groups? ((gs.take pos).flatten) = some (gs.take pos) :=
    utf8_groups_of_isGroups (isGroups_take _ (utf8_groups_isGroups hgs))
  have hgd : utf8_groups? ((gs.drop pos).flatten) = some (gs.drop pos) :=
    utf8_groups_of_isGroups (isGroups_drop _ (utf8_groups_isGroups hgs))
  have hlt : ((gs.take pos).flatten).length + ((gs.drop pos).flatten).length =
      nd.str.length := by
    rw [← htk, ← hdr, List.length_take, List.length_drop]
    omega
  have hct : count_chars ((gs.take pos).flatten) = pos := by
    rw [count_chars_of_groups hgt, List.length_take]
    omega
  have hcd : count_chars ((gs.drop pos).flatten) = gs.length - pos := by
    rw [count_chars_of_groups hgd, List.length_drop]
  have hcap : nd.str.length ≤ ROPE_NODE_STR_SIZE := hw.2.1
  simp only [ins_in_node]
  by_cases hc1 : nd.str.length + str.length ≤ ROPE_NODE_STR_SIZE
  · rw [if_pos hc1]
    have hgrps : utf8_groups? (nd.str.take (chars_to_bytes nd.str pos) ++
        str ++ nd.str.drop (chars_to_bytes nd.str pos)) =
        some (gs.take pos ++ gst ++ gs.drop pos) := by
      rw [htk, hdr]
      exact utf8_groups_append (utf8_groups_append hgt hstr) hgd
    refine ⟨?_, ?_, ?_, ?_, ?_⟩
    · rw [joinStrs_singleton]
      dsimp only
      rw [htk, hdr]
    · intro nd2 hnd2
      rcases List.mem_singleton.mp hnd2 with rfl
      refine ⟨by rw [hgrps]; rfl, ?_, ?_⟩
      · dsimp only
        simp only [List.length_append, List.length_take, List.length_drop]
        omega
      · dsimp only
        rw [count_chars_of_groups hgrps]
        simp only [List.length_append, List.length_take, List.length_drop]
        rw [hskip]
        have := utf8_groups_flatten hstr
        omega
    · simp
    · rw [totalChars_cons]
      show count_chars _ + 0 = _
      rw [count_chars_of_groups hgrps]
      simp only [List.length_append, List.length_take, List.length_drop]
      omega
    · rw [totalBytes_cons]
      show (nd.str.take (chars_to_bytes nd.str pos) ++
        str ++ nd.str.drop (chars_to_bytes nd.str pos)).length + 0 = _
      simp only [List.length_append, List.length_take, List.length_drop]
      omega
  · rw [if_neg hc1]
    set T : List rope_node :=
      if (nd.str.drop (chars_to_bytes nd.str pos)).isEmpty then []
      else [⟨nd.str.drop (chars_to_bytes nd.str pos), nd.skip_size - pos⟩]
      with hT
    have htail_join : joinStrs T =
        nd.str.drop (chars_to_bytes nd.str pos) := by
      rw [hT]
      by_cases he : (nd.str.drop (chars_to_bytes nd.str pos)).isEmpty
      · rw [if_pos he]
        rw [List.isEmpty_iff] at he
        rw [he]
        rfl
      · rw [if_neg he]
        exact joinStrs_singleton _
    have htail_wf : ∀ nd2 ∈ T, nodeWf nd2 := by
      rw [hT]
      by_cases he : (nd.str.drop (chars_to_bytes nd.str pos)).isEmpty
      · rw [if_pos he]
        intro nd2 hnd2
        simp at hnd2
      · rw [if_neg he]
        intro nd2 hnd2
        rcases List.mem_singleton.mp hnd2 with rfl
        refine ⟨by rw [hdr, hgd]; rfl, ?_, ?_⟩
        · dsimp only
          simp only [List.length_drop]
          omega
        · dsimp only
          rw [hdr, hcd, hskip]
    have htail_chars : totalChars T = gs.length - pos := by
      rw [hT]
      by_cases he : (nd.str.drop (chars_to_bytes nd.str pos)).isEmpty
      · rw [if_pos he]
        rw [List.isEmpty_iff, hdr] at he
        have := isGroups_flatten_nil (isGroups_drop pos
          (utf8_groups_isGroups hgs)) he
        have hlen0 : (gs.drop pos).length = 0 := by rw [this]; rfl
        rw [List.length_drop] at hlen0
        show 0 = gs.length - pos
        omega
      · rw [if_neg he]
        rw [totalChars_cons]
        show count_chars (nd.str.drop (chars_to_bytes nd.str pos)) + 0 = _
        rw [hdr, hcd]
        omega
    have htail_bytes : totalBytes T =
        (nd.str.drop (chars_to_bytes nd.str pos)).length := by
      rw [hT]
      by_cases he : (nd.str.drop (chars_to_bytes nd.str pos)).isEmpty
      · rw [if_pos he]
        rw [List.isEmpty_iff] at he
        rw [he]
        rfl
      · rw [if_neg he]
        rw [totalBytes_cons]
        show (nd.str.drop (chars_to_bytes nd.str pos)).length + 0 = _
        omega
    by_cases hc2 : (nd.str.take (chars_to_bytes nd.str pos)).length +
        str.length ≤ ROPE_NODE_STR_SIZE
    · rw [if_pos hc2]
      have hgrps : utf8_groups? (nd.str.take (chars_to_bytes nd.str pos) ++
          str) = some (gs.take pos ++ gst) := by
        rw [htk]
        exact utf8_groups_append hgt hstr
      refine ⟨?_, ?_, ?_, ?_, ?_⟩
      · rw [joinStrs_cons, htail_join]
        dsimp only
        rw [htk, hdr]
      · intro nd2 hnd2
        rcases List.mem_cons.mp hnd2 with rfl | hnd2
        · refine ⟨by rw [hgrps]; rfl, ?_, ?_⟩
          · dsimp only
            simp only [List.length_append]
            omega
          · dsimp only
            rw [count_chars_of_groups hgrps]
            simp only [List.length_append, List.length_take]
            have := utf8_groups_flatten hstr
            omega
        · exact htail_wf nd2 hnd2
      · simp
      · rw [totalChars_cons, htail_chars]
        show count_chars (nd.str.take (chars_to_bytes nd.str pos) ++ str) +
          _ = _
        rw [count_chars_of_groups hgrps]
        simp only [List.length_append, List.length_take]
        omega
      · rw [totalBytes_cons, htail_bytes]
        show (nd.str.take (chars_to_bytes nd.str pos) ++ str).length + _ = _
        simp only [List.length_append, List.length_take, List.length_drop]
        omega
    · rw [if_neg hc2]
      obtain ⟨hcj, hcw, hcc, hcb⟩ := chunk_nodes_ok hstr
      refine ⟨?_, ?_, ?_, ?_, ?_⟩
      · rw [joinStrs_cons, joinStrs_append, hcj, htail_join]
        dsimp only
        rw [htk, hdr, List.append_assoc]
      · intro nd2 hnd2
        rcases List.mem_cons.mp hnd2 with rfl | hnd2
        · refine ⟨by rw [htk, hgt]; rfl, ?_, ?_⟩
          · dsimp only
            simp only [List.length_take]
            omega
          · dsimp only
            rw [htk, hct]
        · rcases List.mem_append.mp hnd2 with hnd2 | hnd2
          · exact hcw nd2 hnd2
          · exact htail_wf nd2 hnd2
      · simp
      · rw [totalChars_cons, totalChars_append, hcc, htail_chars]
        show count_chars (nd.str.take (chars_to_bytes nd.str pos)) + _ = _
        rw [htk, hct]
        omega
      · rw [totalBytes_cons, totalBytes_append, hcb, htail_bytes]
        show (nd.str.take (chars_to_bytes nd.str pos)).length + _ = _
        simp only [List.length_take, List.length_drop]
        omega

/-- `chars_to_bytes` over an append, offset within the first part. -/
theorem chars_to_bytes_append_le {a : List Nat} {ga : List (List Nat)}
    (ha : utf8_groups? a = some ga) (b : List Nat) {p : Nat}
    (hp : p ≤ ga.length) :
    chars_to_bytes (a ++ b) p = chars_to_bytes a p := by
  induction p generalizing a ga with
  | zero => rfl
  | succ p ih =>
    cases ga with
    | nil => simp at hp
    | cons g gs =>
      obtain ⟨hdec, hg, hrest⟩ := utf8_groups_cons_elim ha
      have hgle : g.length ≤ a.length := utf8DecodeLen_le_length hdec
      have hdec2 : utf8DecodeLen (a ++ b) = some g.length := by
        have h2 := utf8DecodeLen_take_append (a.drop g.length ++ b) hdec
        rw [← List.append_assoc, List.take_append_drop] at h2
        exact h2
      show (match utf8DecodeLen (a ++ b) with
            | some k => k + chars_to_bytes ((a ++ b).drop k) p
            | none => 0) =
          (match utf8DecodeLen a with
            | some k => k + chars_to_bytes (a.drop k) p
            | none => 0)
      rw [hdec, hdec2]
      show g.length + chars_to_bytes ((a ++ b).drop g.length) p =
        g.length + chars_to_bytes (a.drop g.length) p
      rw [List.drop_append_of_le_length hgle]
      rw [ih hrest (by simpa using hp)]

/-- `chars_to_bytes` over an append, offset at or past the first part. -/
theorem chars_to_bytes_append_ge {a : List Nat} {ga : List (List Nat)}
    (ha : utf8_groups? a = some ga) (b : List Nat) {p : Nat}
    (hp : ga.length ≤ p) :
    chars_to_bytes (a ++ b) p = a.length + chars_to_bytes b (p - ga.length) := by
  induction ga generalizing a p with
  | nil =>
    have h0 : a = [] := by simpa using (utf8_groups_flatten ha).symm
    subst h0
    simp
  | cons g gs ih =>
    obtain ⟨hdec, hg, hrest⟩ := utf8_groups_cons_elim ha
    have hgle : g.length ≤ a.length := utf8DecodeLen_le_length hdec
    have hdec2 : utf8DecodeLen (a ++ b) = some g.length := by
      have h2 := utf8DecodeLen_take_append (a.drop g.length ++ b) hdec
      rw [← List.append_assoc, List.take_append_drop] at h2
      exact h2
    obtain ⟨p2, rfl⟩ : ∃ q, p = q + 1 := by
      refine ⟨p - 1, ?_⟩
      simp only [List.length_cons] at hp
      omega
    show (match utf8DecodeLen (a ++ b) with
          | some k => k + chars_to_bytes ((a ++ b).drop k) p2
          | none => 0) = _
    rw [hdec2]
    show g.length + chars_to_bytes ((a ++ b).drop g.length) p2 = _
    rw [List.drop_append_of_le_length hgle]
    rw [ih hrest (by simpa using hp)]
    have hdl : (a.drop g.length).length = a.length - g.length := by simp
    have harg : p2 + 1 - (g :: gs).length = p2 - gs.length := by
      simp only [List.length_cons]
      omega
    rw [hdl, harg]
    omega

/-- Correctness of the level-0 insertion walk (spec §4.2/§4.3): on a
well-formed nonempty chain with `pos` within range, the walk succeeds and
splices `str` in at the byte offset of character `pos` of the chain's
logical string; all segments of the result are well formed and the totals
grow by the inserted counts. -/
theorem ins_nodes_ok : ∀ {ns : List rope_node} {pos : Nat} {str : List Nat}
    {gst : List (List Nat)},
    (∀ nd ∈ ns, nodeWf nd) → utf8_groups? str = some gst →
    ns ≠ [] → pos ≤ totalChars ns →
    ∃ ns2, ins_nodes ns pos str gst.length = some ns2 ∧
      (∀ nd ∈ ns2, nodeWf nd) ∧ ns2 ≠ [] ∧
      joinStrs ns2 =
        (joinStrs ns).take (chars_to_bytes (joinStrs ns) pos) ++ str ++
          (joinStrs ns).drop (chars_to_bytes (joinStrs ns) pos) ∧
      totalChars ns2 = totalChars ns + gst.length ∧
      totalBytes ns2 = totalBytes ns + str.length := by
  intro ns
  induction ns with
  | nil => intro pos str gst _ _ hne _; exact absurd rfl hne
  | cons nd rest ih =>
    intro pos str gst hw hstr _ hpos
    rw [List.forall_mem_cons] at hw
    obtain ⟨gs, hgs⟩ := Option.isSome_iff_exists.mp hw.1.1
    have hskip : nd.skip_size = gs.length := by
      rw [hw.1.2.2, count_chars_of_groups hgs]
    have hcnt : count_chars nd.str = gs.length := count_chars_of_groups hgs
    rw [totalChars_cons, hcnt] at hpos
    by_cases hle : pos ≤ nd.skip_size
    · -- insert within this segment
      have hple : pos ≤ gs.length := by omega
      obtain ⟨hj, hwf2, hne2, hc2, hb2⟩ :=
        ins_in_node_ok hw.1 hgs hple hstr
      refine ⟨ins_in_node nd pos str gst.length ++ rest, ?_, ?_, ?_, ?_, ?_, ?_⟩
      · simp only [ins_nodes, if_pos hle]
      · intro nd2 hnd2
        rcases List.mem_append.mp hnd2 with hnd2 | hnd2
        · exact hwf2 nd2 hnd2
        · exact hw.2 nd2 hnd2
      · intro hcon
        rw [List.append_eq_nil] at hcon
        exact hne2 hcon.1
      · rw [joinStrs_append, hj, joinStrs_cons]
        have hble : chars_to_bytes nd.str pos ≤ nd.str.length :=
          chars_to_bytes_le_length hgs pos
        rw [chars_to_bytes_append_le hgs _ hple,
          List.take_append_of_le_length hble,
          List.drop_append_of_le_length hble,
          take_chars_to_bytes hgs, drop_chars_to_bytes hgs]
        simp only [List.append_assoc]
      · rw [totalChars_append, hc2, totalChars_cons, hcnt]
        omega
      · rw [totalBytes_append, hb2, totalBytes_cons]
        omega
    · -- walk to the rest of the chain
      have hrne : rest ≠ [] := by
        intro hcon
        subst hcon
        show False
        have h0 : totalChars ([] : List rope_node) = 0 := rfl
        omega
      have hge : gs.length ≤ pos := by omega
      have harg : pos - nd.skip_size = pos - gs.length := by omega
      obtain ⟨ns2, hins, hwf2, hne2, hj2, hc2, hb2⟩ :=
        @ih (pos - nd.skip_size) str gst hw.2 hstr hrne (by omega)
      rw [harg] at hj2
      refine ⟨nd :: ns2, ?_, ?_, ?_, ?_, ?_, ?_⟩
      · simp only [ins_nodes, if_neg hle]
        rw [hins]
        rfl
      · intro nd2 hnd2
        rcases List.mem_cons.mp hnd2 with rfl | hnd2
        · exact hw.1
        · exact hwf2 nd2 hnd2
      · simp
      · rw [joinStrs_cons, hj2, joinStrs_cons]
        rw [chars_to_bytes_append_ge hgs _ hge]
        rw [List.take_append, List.drop_append]
        simp only [List.append_assoc]
      · rw [totalChars_cons, hc2, totalChars_cons]
        omega
      · rw [totalBytes_cons, hb2, totalBytes_cons]
        omega

theorem rope_content_eq (r : rope) : rope_content r = joinStrs r.nodes := rfl

/-- The walk rejects positions beyond the chain's character count (spec §7:
precondition violation; the model yields no result). -/
theorem ins_nodes_none : ∀ {ns : List rope_node} {pos : Nat}
    (str : List Nat) (n : Nat),
    (∀ nd ∈ ns, nodeWf nd) → totalChars ns < pos →
    ins_nodes ns pos str n = none := by
  intro ns
  induction ns with
  | nil => intro pos str n _ _; rfl
  | cons nd rest ih =>
    intro pos str n hw hpos
    rw [List.forall_mem_cons] at hw
    rw [totalChars_cons, ← hw.1.2.2] at hpos
    have hif : ¬ pos ≤ nd.skip_size := by omega
    simp only [ins_nodes, if_neg hif]
    rw [ih str n hw.2 (by omega)]
    rfl

/-- Rejected input: `rope_insert` returns `ROPE_INVALID_UTF8` and the very
same rope (`rope.h` lines 118–120, spec §7: detected before any mutation). -/
theorem rope_insert_invalid (r : rope) (pos : Nat) {str : List Nat}
    (h : utf8_count_chars? str = none) :
    rope_insert r pos str = some (ROPE_INVALID_UTF8, r) := by
  simp only [rope_insert, h]

/-- Successful insertion: result, well-formedness, logical string and
counts. -/
theorem rope_insert_ok {r : rope} {pos : Nat} {str : List Nat}
    {gst : List (List Nat)} (hwf : ropeWf r)
    (hstr : utf8_groups? str = some gst) (hpos : pos ≤ r.num_chars) :
    ∃ r2, rope_insert r pos str = some (ROPE_OK, r2) ∧ ropeWf r2 ∧
      rope_content r2 =
        (rope_content r).take (chars_to_bytes (rope_content r) pos) ++ str ++
          (rope_content r).drop (chars_to_bytes (rope_content r) pos) ∧
      r2.num_chars = r.num_chars + gst.length ∧
      r2.num_bytes = r.num_bytes + str.length := by
  obtain ⟨hne, hw, hc, hb⟩ := hwf
  obtain ⟨ns2, hins, hwf2, hne2, hj2, hc2, hb2⟩ :=
    @ins_nodes_ok r.nodes pos str gst hw hstr hne (by omega)
  refine ⟨⟨r.num_chars + gst.length, r.num_bytes + str.length, ns2⟩, ?_, ?_,
    ?_, rfl, rfl⟩
  · simp only [rope_insert, utf8_count_chars_of_groups hstr, hins]
  · exact ⟨hne2, hwf2, by rw [hc, hc2], by rw [hb, hb2]⟩
  · rw [rope_content_eq, rope_content_eq]
    exact hj2

/-- Insertion at a position beyond the character count yields no result
(spec §7/§9: out-of-range insertion positions are a contract violation; the
original does not clamp them). -/
theorem rope_insert_oob {r : rope} {pos : Nat} (str : List Nat)
    (hwf : ropeWf r) (hpos : r.num_chars < pos)
    {m : Nat} (hstr : utf8_count_chars? str = some m) :
    rope_insert r pos str = none := by
  obtain ⟨hne, hw, hc, hb⟩ := hwf
  simp only [rope_insert, hstr]
  have hlt : totalChars r.nodes < pos := by omega
  rw [ins_nodes_none str m hw hlt]

theorem chars_to_bytes_nil (n : Nat) : chars_to_bytes [] n = 0 := by
  cases n <;> rfl

/-- `count_chars` of a well-formed chain's logical string is the chain's
character total. -/
theorem count_join_eq_totalChars {ns : List rope_node}
    (h : ∀ nd ∈ ns, nodeWf nd) :
    count_chars (joinStrs ns) = totalChars ns := by
  obtain ⟨gs, hg, hl⟩ := joinStrs_groups h
  rw [count_chars_of_groups hg, hl]

/-- Correctness of the level-0 deletion walk (spec §4.4): characters and
bytes removed, the resulting logical string, segment well-formedness, and
head preservation. -/
theorem del_nodes_ok : ∀ {ns : List rope_node} (hd : Bool) (pos num : Nat),
    (∀ nd ∈ ns, nodeWf nd) →
    (∀ nd ∈ (del_nodes hd ns pos num).1, nodeWf nd) ∧
      (del_nodes hd ns pos num).2.1 =
        min (pos + num) (totalChars ns) - min pos (totalChars ns) ∧
      (del_nodes hd ns pos num).2.2 =
        chars_to_bytes (joinStrs ns) (min (pos + num) (totalChars ns)) -
          chars_to_bytes (joinStrs ns) (min pos (totalChars ns)) ∧
      joinStrs (del_nodes hd ns pos num).1 =
        (joinStrs ns).take
            (chars_to_bytes (joinStrs ns) (min pos (totalChars ns))) ++
          (joinStrs ns).drop
            (chars_to_bytes (joinStrs ns) (min (pos + num) (totalChars ns))) ∧
      (hd = true → ns ≠ [] → (del_nodes hd ns pos num).1 ≠ []) := by
  intro ns
  induction ns with
  | nil =>
    intro hd pos num _
    have h0 : del_nodes hd [] pos num = ([], 0, 0) := by cases hd <;> rfl
    rw [h0]
    have ht0 : totalChars ([] : List rope_node) = 0 := rfl
    refine ⟨by intro nd hnd; simp at hnd, ?_, ?_, ?_, ?_⟩
    · show 0 = _
      rw [ht0]
      omega
    · show 0 = _
      rw [joinStrs_nil, chars_to_bytes_nil, chars_to_bytes_nil]
    · show joinStrs [] = _
      rw [joinStrs_nil]
      simp
    · intro _ hne
      exact absurd rfl hne
  | cons nd rest ih =>
    intro hd pos num hw
    have hwc := hw
    rw [List.forall_mem_cons] at hwc
    obtain ⟨gs, hgs⟩ := Option.isSome_iff_exists.mp hwc.1.1
    have hcnt : count_chars nd.str = gs.length := count_chars_of_groups hgs
    have hm : nd.skip_size = gs.length := by rw [hwc.1.2.2, hcnt]
    have hT : totalChars (nd :: rest) = gs.length + totalChars rest := by
      rw [totalChars_cons, hcnt]
    have hJ : joinStrs (nd :: rest) = nd.str ++ joinStrs rest :=
      joinStrs_cons nd rest
    by_cases h0 : num = 0
    · subst h0
      have hstep : del_nodes hd (nd :: rest) pos 0 = (nd :: rest, 0, 0) := by
        simp only [del_nodes]
        rw [if_pos trivial]
      rw [hstep]
      refine ⟨hw, ?_, ?_, ?_, by intro _ _; simp⟩
      · show 0 = _
        omega
      · show 0 = _
        rw [Nat.add_zero]
        omega
      · show joinStrs (nd :: rest) = _
        simp only [Nat.add_zero]
        exact (List.take_append_drop _ _).symm
    · by_cases hsk : nd.skip_size ≤ pos
      · -- the deletion starts past this segment
        have hstep : del_nodes hd (nd :: rest) pos num =
            (nd :: (del_nodes false rest (pos - nd.skip_size) num).1,
              (del_nodes false rest (pos - nd.skip_size) num).2) := by
          simp only [del_nodes, if_neg h0, if_pos hsk]
        obtain ⟨ihw, ihc, ihb, ihj, _⟩ :=
          ih false (pos - nd.skip_size) num hwc.2
        obtain ⟨gsr, hgsr, hlr⟩ := joinStrs_groups hwc.2
        have hc2b_ge : ∀ q, gs.length ≤ q →
            chars_to_bytes (joinStrs (nd :: rest)) q =
              nd.str.length + chars_to_bytes (joinStrs rest) (q - gs.length) := by
          intro q hq
          rw [hJ]
          exact chars_to_bytes_append_ge hgs _ hq
        have hq1 : gs.length ≤ min pos (totalChars (nd :: rest)) := by
          rw [hT]
          omega
        have hq2 : gs.length ≤ min (pos + num) (totalChars (nd :: rest)) := by
          rw [hT]
          omega
        have he1 : min pos (totalChars (nd :: rest)) - gs.length =
            min (pos - nd.skip_size) (totalChars rest) := by
          rw [hT]
          omega
        have he2 : min (pos + num) (totalChars (nd :: rest)) - gs.length =
            min (pos - nd.skip_size + num) (totalChars rest) := by
          rw [hT]
          omega
        rw [hstep]
        refine ⟨?_, ?_, ?_, ?_, ?_⟩
        · intro nd2 hnd2
          rcases List.mem_cons.mp hnd2 with rfl | hnd2
          · exact hwc.1
          · exact ihw nd2 hnd2
        · show (del_nodes false rest (pos - nd.skip_size) num).2.1 = _
          rw [ihc]
          rw [hT]
          omega
        · show (del_nodes false rest (pos - nd.skip_size) num).2.2 = _
          rw [ihb, hc2b_ge _ hq1, hc2b_ge _ hq2, he1, he2]
          have hble1 := chars_to_bytes_le_length hgsr
            (min (pos - nd.skip_size) (totalChars rest))
          have hmono := chars_to_bytes_mono hgsr
            (p := min (pos - nd.skip_size) (totalChars rest))
            (q := min (pos - nd.skip_size + num) (totalChars rest))
            (by omega)
          omega
        · rw [joinStrs_cons, ihj, hc2b_ge _ hq1, hc2b_ge _ hq2, he1, he2,
            hJ, List.take_append, List.drop_append]
          simp only [List.append_assoc]
        · intro _ _
          simp
      · -- the deletion starts inside this segment
        have hposm : pos < gs.length := by omega
        simp only [del_nodes]
        rw [if_neg h0, if_neg hsk]
        set K := min num (nd.skip_size - pos) with hK
        set B1 := chars_to_bytes nd.str pos with hB1
        set B2 := chars_to_bytes nd.str (pos + K) with hB2
        set S2 := nd.str.take B1 ++ nd.str.drop B2 with hS2
        set P := del_nodes false rest 0 (num - K) with hP
        have hk1 : 1 ≤ K := by omega
        have hkle : pos + K ≤ gs.length := by omega
        have hble1 : B1 ≤ nd.str.length := by
          rw [hB1]
          exact chars_to_bytes_le_length hgs pos
        have hble2 : B2 ≤ nd.str.length := by
          rw [hB2]
          exact chars_to_bytes_le_length hgs (pos + K)
        have hmono : B1 ≤ B2 := by
          rw [hB1, hB2]
          exact chars_to_bytes_mono hgs (by omega)
        have hb1tk : nd.str.take B1 = (gs.take pos).flatten := by
          rw [hB1]
          exact take_chars_to_bytes hgs pos
        have hdrb2 : nd.str.drop B2 = (gs.drop (pos + K)).flatten := by
          rw [hB2]
          exact drop_chars_to_bytes hgs (pos + K)
        have hgrp2 : utf8_groups? S2 =
            some (gs.take pos ++ gs.drop (pos + K)) := by
          rw [hS2, hb1tk, hdrb2]
          exact utf8_groups_append
            (utf8_groups_of_isGroups (isGroups_take _ (utf8_groups_isGroups hgs)))
            (utf8_groups_of_isGroups (isGroups_drop _ (utf8_groups_isGroups hgs)))
        have hcnt2 : count_chars S2 = gs.length - K := by
          rw [count_chars_of_groups hgrp2, List.length_append,
            List.length_take, List.length_drop]
          omega
        have hlen2 : S2.length ≤ nd.str.length := by
          rw [hS2, List.length_append, List.length_take, List.length_drop]
          omega
        obtain ⟨ihw, ihc, ihb, ihj, _⟩ := ih false 0 (num - K) hwc.2
        rw [← hP] at ihw ihc ihb ihj
        obtain ⟨gsr, hgsr, hlr⟩ := joinStrs_groups hwc.2
        have ihc2 : P.2.1 = min (num - K) (totalChars rest) := by
          rw [ihc]
          omega
        have hmin0 : min (0 : Nat) (totalChars rest) = 0 := by omega
        have harg0 : (0 : Nat) + (num - K) = num - K := by omega
        have ihb2 : P.2.2 =
            chars_to_bytes (joinStrs rest) (min (num - K) (totalChars rest)) := by
          rw [ihb, hmin0, harg0]
          have h3 : chars_to_bytes (joinStrs rest) 0 = 0 := rfl
          rw [h3]
          omega
        have ihj2 : joinStrs P.1 =
            (joinStrs rest).drop
              (chars_to_bytes (joinStrs rest) (min (num - K) (totalChars rest))) := by
          rw [ihj, hmin0, harg0]
          have h3 : chars_to_bytes (joinStrs rest) 0 = 0 := rfl
          rw [h3, List.take_zero]
          rfl
        have hq1 : min pos (totalChars (nd :: rest)) = pos := by
          rw [hT]
          omega
        have hq2 : min (pos + num) (totalChars (nd :: rest)) =
            pos + K + min (num - K) (totalChars rest) := by
          rw [hT]
          omega
        have hc2bq1 : chars_to_bytes (joinStrs (nd :: rest))
            (min pos (totalChars (nd :: rest))) = B1 := by
          rw [hq1, hJ, hB1]
          exact chars_to_bytes_append_le hgs _ (by omega)
        have HW2 : nodeWf ⟨S2, nd.skip_size - K⟩ := by
          refine ⟨by rw [hgrp2]; rfl, ?_, ?_⟩
          · show S2.length ≤ ROPE_NODE_STR_SIZE
            have := hwc.1.2.1
            omega
          · show nd.skip_size - K = count_chars S2
            rw [hcnt2]
            omega
        by_cases hnum : num ≤ nd.skip_size - pos
        · -- the whole deletion fits inside this segment
          have hKn : K = num := by omega
          have hmK : min (num - K) (totalChars rest) = 0 := by omega
          have hq2e : min (pos + num) (totalChars (nd :: rest)) = pos + K := by
            rw [hq2, hmK]
            omega
          have hc2bq2 : chars_to_bytes (joinStrs (nd :: rest))
              (min (pos + num) (totalChars (nd :: rest))) = B2 := by
            rw [hq2e, hJ, hB2]
            exact chars_to_bytes_append_le hgs _ (by omega)
          have hP22 : P.2.2 = 0 := by
            rw [ihb2, hmK]
            rfl
          have hjP : joinStrs P.1 = joinStrs rest := by
            rw [ihj2, hmK]
            have h3 : chars_to_bytes (joinStrs rest) 0 = 0 := rfl
            rw [h3, List.drop_zero]
          have HJ2 : S2 ++ joinStrs P.1 =
              (joinStrs (nd :: rest)).take
                  (chars_to_bytes (joinStrs (nd :: rest))
                    (min pos (totalChars (nd :: rest)))) ++
                (joinStrs (nd :: rest)).drop
                  (chars_to_bytes (joinStrs (nd :: rest))
                    (min (pos + num) (totalChars (nd :: rest)))) := by
            rw [hc2bq1, hc2bq2, hjP, hJ,
              List.take_append_of_le_length hble1,
              List.drop_append_of_le_length hble2, hS2]
            simp only [List.append_assoc]
          by_cases hif : (S2.isEmpty && !hd) = true
          · rw [if_pos hif]
            simp only [Bool.and_eq_true, Bool.not_eq_eq_eq_not,
              Bool.not_true, List.isEmpty_iff] at hif
            refine ⟨ihw, ?_, ?_, ?_, ?_⟩
            · show K + P.2.1 = _
              rw [ihc2, hq1, hq2e]
              omega
            · show B2 - B1 + P.2.2 = _
              rw [hP22, hc2bq1, hc2bq2]
              omega
            · show joinStrs P.1 = _
              rw [← HJ2, hif.1]
              rfl
            · intro hhd
              rw [hhd] at hif
              exact absurd hif.2 (by simp)
          · rw [if_neg hif]
            refine ⟨?_, ?_, ?_, ?_, ?_⟩
            · intro nd2 hnd2
              rcases List.mem_cons.mp hnd2 with rfl | hnd2
              · exact HW2
              · exact ihw nd2 hnd2
            · show K + P.2.1 = _
              rw [ihc2, hq1, hq2e]
              omega
            · show B2 - B1 + P.2.2 = _
              rw [hP22, hc2bq1, hc2bq2]
              omega
            · show joinStrs (⟨S2, nd.skip_size - K⟩ :: P.1) = _
              rw [joinStrs_cons]
              exact HJ2
            · intro _ _
              simp
        · -- the deletion continues past this segment
          have hKn : K = nd.skip_size - pos := by omega
          have hpk : pos + K = gs.length := by omega
          have hB2full : B2 = nd.str.length := by
            rw [hB2, hpk]
            exact chars_to_bytes_full hgs (le_refl _)
          have hc2bq2 : chars_to_bytes (joinStrs (nd :: rest))
              (min (pos + num) (totalChars (nd :: rest))) =
              nd.str.length +
                chars_to_bytes (joinStrs rest)
                  (min (num - K) (totalChars rest)) := by
            rw [hq2, hJ, hpk]
            rw [chars_to_bytes_append_ge hgs _ (by omega)]
            have harg : gs.length + min (num - K) (totalChars rest) -
                gs.length = min (num - K) (totalChars rest) := by omega
            rw [harg]
          have HJ2 : S2 ++ joinStrs P.1 =
              (joinStrs (nd :: rest)).take
                  (chars_to_bytes (joinStrs (nd :: rest))
                    (min pos (totalChars (nd :: rest)))) ++
                (joinStrs (nd :: rest)).drop
                  (chars_to_bytes (joinStrs (nd :: rest))
                    (min (pos + num) (totalChars (nd :: rest)))) := by
            rw [hc2bq1, hc2bq2, hJ, List.take_append_of_le_length hble1,
              List.drop_append, hS2, hB2full, List.drop_length, ihj2]
            simp
          by_cases hif : (S2.isEmpty && !hd) = true
          · rw [if_pos hif]
            simp only [Bool.and_eq_true, Bool.not_eq_eq_eq_not,
              Bool.not_true, List.isEmpty_iff] at hif
            refine ⟨ihw, ?_, ?_, ?_, ?_⟩
            · show K + P.2.1 = _
              rw [ihc2, hq1, hq2]
              omega
            · show B2 - B1 + P.2.2 = _
              rw [ihb2, hc2bq1, hc2bq2, hB2full]
              omega
            · show joinStrs P.1 = _
              rw [← HJ2, hif.1]
              rfl
            · intro hhd
              rw [hhd] at hif
              exact absurd hif.2 (by simp)
          · rw [if_neg hif]
            refine ⟨?_, ?_, ?_, ?_, ?_⟩
            · intro nd2 hnd2
              rcases List.mem_cons.mp hnd2 with rfl | hnd2
              · exact HW2
              · exact ihw nd2 hnd2
            · show K + P.2.1 = _
              rw [ihc2, hq1, hq2]
              omega
            · show B2 - B1 + P.2.2 = _
              rw [ihb2, hc2bq1, hc2bq2, hB2full]
              omega
            · show joinStrs (⟨S2, nd.skip_size - K⟩ :: P.1) = _
              rw [joinStrs_cons]
              exact HJ2
            · intro _ _
              simp

theorem joinStrs_length (ns : List rope_node) :
    (joinStrs ns).length = totalBytes ns := by
  induction ns with
  | nil => rfl
  | cons nd rest ih =>
    rw [joinStrs_cons, totalBytes_cons, List.length_append, ih]

/-- `rope_del` preserves well-formedness; its character count and logical
string are the clamped removal of spec §4.4. -/
theorem rope_del_ok {r : rope} (pos num : Nat) (hwf : ropeWf r) :
    ropeWf (rope_del r pos num) ∧
      (rope_del r pos num).num_chars =
        r.num_chars -
          (min (pos + num) r.num_chars - min pos r.num_chars) ∧
      rope_content (rope_del r pos num) =
        (rope_content r).take
            (chars_to_bytes (rope_content r) (min pos r.num_chars)) ++
          (rope_content r).drop
            (chars_to_bytes (rope_content r) (min (pos + num) r.num_chars)) := by
  obtain ⟨hne, hw, hc, hb⟩ := hwf
  obtain ⟨hwd, hcd, hbd, hjd, hned⟩ := del_nodes_ok true pos num hw
  obtain ⟨gs, hgs, hgl⟩ := joinStrs_groups hw
  have hq1T : min pos (totalChars r.nodes) ≤ gs.length := by omega
  have hq2T : min (pos + num) (totalChars r.nodes) ≤ gs.length := by omega
  have hqmono : min pos (totalChars r.nodes) ≤
      min (pos + num) (totalChars r.nodes) := by omega
  have hx1 := chars_to_bytes_le_length hgs (min pos (totalChars r.nodes))
  have hx2 := chars_to_bytes_le_length hgs (min (pos + num) (totalChars r.nodes))
  have hxm := chars_to_bytes_mono hgs hqmono
  have htk := take_chars_to_bytes hgs (min pos (totalChars r.nodes))
  have hdr := drop_chars_to_bytes hgs (min (pos + num) (totalChars r.nodes))
  have hgrp2 : utf8_groups? (joinStrs (del_nodes true r.nodes pos num).1) =
      some (gs.take (min pos (totalChars r.nodes)) ++
        gs.drop (min (pos + num) (totalChars r.nodes))) := by
    rw [hjd, htk, hdr]
    exact utf8_groups_append
      (utf8_groups_of_isGroups (isGroups_take _ (utf8_groups_isGroups hgs)))
      (utf8_groups_of_isGroups (isGroups_drop _ (utf8_groups_isGroups hgs)))
  have hcnt2 : totalChars (del_nodes true r.nodes pos num).1 =
      min pos (totalChars r.nodes) +
        (totalChars r.nodes - min (pos + num) (totalChars r.nodes)) := by
    rw [← count_join_eq_totalChars hwd, count_chars_of_groups hgrp2,
      List.length_append, List.length_take, List.length_drop]
    omega
  have hbyt2 : totalBytes (del_nodes true r.nodes pos num).1 =
      chars_to_bytes (joinStrs r.nodes) (min pos (totalChars r.nodes)) +
        ((joinStrs r.nodes).length -
          chars_to_bytes (joinStrs r.nodes)
            (min (pos + num) (totalChars r.nodes))) := by
    rw [← joinStrs_length, hjd, List.length_append, List.length_take,
      List.length_drop]
    omega
  refine ⟨⟨?_, hwd, ?_, ?_⟩, ?_, ?_⟩
  · exact hned rfl hne
  · show r.num_chars - (del_nodes true r.nodes pos num).2.1 =
      totalChars (del_nodes true r.nodes pos num).1
    rw [hcd, hcnt2, hc]
    omega
  · show r.num_bytes - (del_nodes true r.nodes pos num).2.2 =
      totalBytes (del_nodes true r.nodes pos num).1
    rw [hbd, hbyt2, hb, ← joinStrs_length]
    omega
  · show r.num_chars - (del_nodes true r.nodes pos num).2.1 = _
    rw [hcd, hc]
  · show joinStrs (del_nodes true r.nodes pos num).1 = _
    rw [hjd, rope_content_eq, hc]

theorem rope_copy_eq (r : rope) : rope_copy r = r := by
  cases r with
  | mk a b ns =>
    simp only [rope_copy]
    congr 1
    show ns.map (fun nd => nd) = ns
    exact List.map_id' ns

/-- Every rope reachable by public operations satisfies the §3 container and
segment invariants. -/
theorem reachable_wf : ∀ {r : rope}, Reachable r → ropeWf r := by
  intro r h
  induction h with
  | new => decide
  | @insert r pos str res r2 _ hins ih =>
    cases hscan : utf8_count_chars? str with
    | none =>
      rw [rope_insert_invalid r pos hscan] at hins
      cases hins
      exact ih
    | some n =>
      obtain ⟨gst, hgst, hgstl⟩ := utf8_groups_of_count hscan
      by_cases hpos : pos ≤ r.num_chars
      · obtain ⟨r3, hins2, hwf3, _, _, _⟩ := rope_insert_ok ih hgst hpos
        rw [hins2] at hins
        cases hins
        exact hwf3
      · rw [rope_insert_oob str ih (by omega) hscan] at hins
        cases hins
  | del pos num _ ih => exact (rope_del_ok pos num ih).1
  | copy _ ih =>
    rw [rope_copy_eq]
    exact ih

/-! ## Height generation (spec §4.5, `rope.h` lines 27–36)

Modelled from the spec: the generator repeatedly flips a biased coin — a
uniform draw `d` in `[0, 100)` continues (`d < ROPE_BIAS`) or stops — starting
from height 1 and capped at `ROPE_MAX_HEIGHT`.  The random source is
modelled as the list of draws consumed in order (`d % 100` mirrors taking a
raw generator value modulo 100); exhausting the list stops the loop, so
statements about the distribution use lists long enough for the events they
mention. -/

def random_height_aux : Nat → List Nat → Nat
  | h, [] => h
  | h, d :: ds =>
    if h < ROPE_MAX_HEIGHT ∧ d % 100 < ROPE_BIAS then
      random_height_aux (h + 1) ds
    else h

/-- Height of a new segment, from the biased coin-flip draws. -/
def random_height (draws : List Nat) : Nat := random_height_aux 1 draws

theorem random_height_aux_ge : ∀ (ds : List Nat) (h : Nat),
    h ≤ random_height_aux h ds := by
  intro ds
  induction ds with
  | nil => intro h; exact le_refl _
  | cons d ds ih =>
    intro h
    simp only [random_height_aux]
    split_ifs with hc
    · exact le_trans (by omega) (ih (h + 1))
    · exact le_refl _

theorem random_height_aux_le : ∀ (ds : List Nat) (h : Nat),
    h ≤ ROPE_MAX_HEIGHT → random_height_aux h ds ≤ ROPE_MAX_HEIGHT := by
  intro ds
  induction ds with
  | nil => intro h hh; exact hh
  | cons d ds ih =>
    intro h hh
    simp only [random_height_aux]
    split_ifs with hc
    · exact ih (h + 1) (by omega)
    · exact hh

/-- Under all-successful draws the loop height is deterministic. -/
theorem random_height_aux_append : ∀ (ds : List Nat) (h : Nat)
    (l2 : List Nat), (∀ x ∈ ds, x % 100 < ROPE_BIAS) →
    h + ds.length ≤ ROPE_MAX_HEIGHT →
    random_height_aux h (ds ++ l2) = random_height_aux (h + ds.length) l2 := by
  intro ds
  induction ds with
  | nil => intro h l2 _ _; rfl
  | cons d ds ih =>
    intro h l2 hall hle
    rw [List.forall_mem_cons] at hall
    simp only [List.cons_append, random_height_aux]
    rw [if_pos ⟨by simp at hle; omega, hall.1⟩]
    show random_height_aux (h + 1) (ds ++ l2) =
      random_height_aux (h + (d :: ds).length) l2
    rw [ih (h + 1) l2 hall.2 (by simp at hle; omega)]
    congr 1
    simp
    omega

/-- The height of the successful-prefix run itself. -/
theorem random_height_all_success {ds : List Nat}
    (hall : ∀ x ∈ ds, x % 100 < ROPE_BIAS)
    (hle : ds.length + 1 ≤ ROPE_MAX_HEIGHT) :
    random_height ds = ds.length + 1 := by
  have h2 := random_height_aux_append ds 1 [] hall (by omega)
  rw [List.append_nil] at h2
  rw [random_height, h2]
  show 1 + ds.length = ds.length + 1
  omega

/-- One further draw after an all-successful run: the height extends exactly
when the draw clears the bias. -/
theorem random_height_one_more {ds : List Nat} (d : Nat)
    (hall : ∀ x ∈ ds, x % 100 < ROPE_BIAS)
    (hle : ds.length + 1 < ROPE_MAX_HEIGHT) :
    random_height (ds ++ [d]) =
      if d % 100 < ROPE_BIAS then ds.length + 2 else ds.length + 1 := by
  have h2 := random_height_aux_append ds 1 [d] hall (by omega)
  rw [random_height, h2]
  by_cases hd : d % 100 < ROPE_BIAS
  · rw [if_pos hd]
    show random_height_aux (1 + ds.length) [d] = _
    simp only [random_height_aux]
    rw [if_pos ⟨by omega, hd⟩]
    show 1 + ds.length + 1 = ds.length + 2
    omega
  · rw [if_neg hd]
    show random_height_aux (1 + ds.length) [d] = _
    simp only [random_height_aux]
    rw [if_neg (fun hcon => hd hcon.2)]
    show 1 + ds.length = ds.length + 1
    omega

/-- Nested counting of draw pairs, shallow enough for kernel evaluation. -/
def count_draw_pairs (p : Nat → Nat → Bool) : Nat :=
  (List.range 100).foldl
    (fun acc a => acc + (List.range 100).countP (fun b => p a b)) 0

/-- Conditioned on the generator having reached height `k = ds.length + 1 <
ROPE_MAX_HEIGHT`, exactly `ROPE_BIAS` of the 100 equally likely next draws
extend the height to `k + 1`. -/
theorem count_next_draw {ds : List Nat}
    (hall : ∀ x ∈ ds, x % 100 < ROPE_BIAS)
    (hle : ds.length + 1 < ROPE_MAX_HEIGHT) :
    (List.range 100).countP
        (fun d => decide (random_height (ds ++ [d]) = ds.length + 2)) =
      ROPE_BIAS := by
  have hcg : ∀ d ∈ List.range 100,
      (decide (random_height (ds ++ [d]) = ds.length + 2) = true ↔
        decide (d % 100 < ROPE_BIAS) = true) := by
    intro d _
    rw [random_height_one_more d hall hle]
    simp only [decide_eq_true_eq]
    by_cases hd : d % 100 < ROPE_BIAS
    · rw [if_pos hd]
      constructor
      · intro _
        exact hd
      · intro _
        rfl
    · rw [if_neg hd]
      constructor
      · intro hcon
        omega
      · intro hcon
        exact absurd hcon hd
  rw [List.countP_congr hcg]
  decide

/-! ## Storage model for deep copy (spec §4.6)

The pure rope value cannot express storage sharing, so the deep-copy claim
is settled over an explicit heap: cells hold a segment buffer and the index
of the level-0 successor.  Allocation appends fresh cells (a legal allocator
behaviour: addresses are never reused within the trace considered).
`rope_copy` is modelled by `acopy`: one fresh cell per segment of the source
chain, rethreaded in order — the spec's deep copy that duplicates every
segment and shares no storage. -/

structure anode where
  str : List Nat
  next : Option Nat
  deriving DecidableEq

/-- Walk the level-0 chain from `o`, collecting cell indices; the fuel only
bounds the walk so it is structural. -/
def awalk (h : List anode) : Nat → Option Nat → List Nat
  | 0, _ => []
  | _ + 1, none => []
  | f + 1, some i =>
    match h[i]? with
    | none => []
    | some nd => i :: awalk h f nd.next

/-- The cell indices of the chain rooted at `root`. -/
def achain (h : List anode) (root : Nat) : List Nat :=
  awalk h (h.length + 1) (some root)

/-- Buffer stored in cell `i` (empty for an unallocated index). -/
def acell_str (h : List anode) (i : Nat) : List Nat :=
  ((h[i]?).map anode.str).getD []

/-- Materialized, sentinel-terminated string of the rope rooted at `root`. -/
def a_to_utf8 (h : List anode) (root : Nat) : List Nat :=
  ((achain h root).map (acell_str h)).flatten ++ [0]

/-- Deep copy (spec §4.6): one fresh cell per segment of the chain, placed
at the end of the heap and rethreaded in order; returns the new heap and the
new rope's root. -/
def acopy (h : List anode) (root : Nat) : List anode × Nat :=
  let is := achain h root
  let n := h.length
  let copies := (List.range is.length).map (fun j =>
    (⟨acell_str h (is.getD j 0),
      if j + 1 < is.length then some (n + j + 1) else none⟩ : anode))
  (h ++ copies, n)

/-- No dangling successor pointers (every heap reachable by the operations
keeps its links in bounds). -/
def NextClosed (h : List anode) : Prop :=
  ∀ nd ∈ h, ∀ j, nd.next = some j → j < h.length

/-- The walk from `root` has terminated within the fuel budget (the chain is
finite — acyclic — inside the heap). -/
def ChainStable (h : List anode) (root : Nat) : Prop :=
  awalk h (h.length + 1) (some root) = awalk h (h.length + 2) (some root)

instance (h : List anode) (root : Nat) : Decidable (ChainStable h root) := by
  unfold ChainStable
  infer_instance

theorem awalk_none (h : List anode) (f : Nat) : awalk h f none = [] := by
  cases f <;> rfl

theorem awalk_cons_none {h : List anode} {i : Nat} (f : Nat)
    (hj : h[i]? = none) : awalk h (f + 1) (some i) = [] := by
  show (match h[i]? with
    | none => []
    | some nd => i :: awalk h f nd.next) = []
  rw [hj]

theorem awalk_cons_some {h : List anode} {i : Nat} {nd : anode} (f : Nat)
    (hj : h[i]? = some nd) :
    awalk h (f + 1) (some i) = i :: awalk h f nd.next := by
  show (match h[i]? with
    | none => []
    | some nd => i :: awalk h f nd.next) = _
  rw [hj]

theorem awalk_mem_lt {h : List anode} : ∀ (f : Nat) (o : Option Nat)
    (i : Nat), i ∈ awalk h f o → i < h.length := by
  intro f
  induction f with
  | zero => intro o i hi; simp [awalk] at hi
  | succ f ih =>
    intro o i hi
    match o with
    | none => rw [awalk_none] at hi; simp at hi
    | some j =>
      cases hj : h[j]? with
      | none =>
        rw [awalk_cons_none f hj] at hi
        simp at hi
      | some nd =>
        rw [awalk_cons_some f hj] at hi
        rcases List.mem_cons.mp hi with rfl | hi
        · exact (List.getElem?_eq_some_iff.mp hj).1
        · exact ih nd.next i hi

/-- Once stable at some fuel, the walk is the same at any larger fuel. -/
theorem awalk_stable {h : List anode} : ∀ (f : Nat) (o : Option Nat),
    awalk h f o = awalk h (f + 1) o →
    ∀ g, f ≤ g → awalk h f o = awalk h g o := by
  intro f
  induction f with
  | zero =>
    intro o hst g hg
    match o with
    | none => rw [awalk_none, awalk_none]
    | some i =>
      have hst2 : ([] : List Nat) = awalk h 1 (some i) := hst
      match g with
      | 0 => rfl
      | g + 1 =>
        show ([] : List Nat) = awalk h (g + 1) (some i)
        cases hj : h[i]? with
        | none => rw [awalk_cons_none g hj]
        | some nd =>
          rw [awalk_cons_some 0 hj] at hst2
          exact absurd hst2 (by simp)
  | succ f ih =>
    intro o hst g hg
    match o with
    | none => rw [awalk_none, awalk_none]
    | some i =>
      match g, hg with
      | g + 1, _ =>
        cases hj : h[i]? with
        | none => rw [awalk_cons_none f hj, awalk_cons_none g hj]
        | some nd =>
          rw [awalk_cons_some f hj, awalk_cons_some g hj]
          rw [awalk_cons_some f hj, awalk_cons_some (f + 1) hj] at hst
          simp only [List.cons.injEq, true_and] at hst
          rw [ih nd.next hst g (by omega)]

/-- The walk reads only the cells it visits: heaps agreeing on the visited
cells walk identically (no dangling links, root in bounds). -/
theorem awalk_frame {h2 h3 : List anode} (hnc : NextClosed h2) :
    ∀ (f : Nat) (i : Nat), i < h2.length →
    (∀ j ∈ awalk h2 f (some i), h3[j]? = h2[j]?) →
    awalk h3 f (some i) = awalk h2 f (some i) := by
  intro f
  induction f with
  | zero => intro i _ _; rfl
  | succ f ih =>
    intro i hi hagree
    have hnd : h2[i]? = some h2[i] := List.getElem?_eq_getElem hi
    have hmem : i ∈ awalk h2 (f + 1) (some i) := by
      rw [awalk_cons_some f hnd]
      exact List.mem_cons_self _ _
    have h3i : h3[i]? = some h2[i] := by rw [hagree i hmem, hnd]
    rw [awalk_cons_some f hnd, awalk_cons_some f h3i]
    cases hnx : h2[i].next with
    | none => rw [awalk_none, awalk_none]
    | some i2 =>
      have hi2 : i2 < h2.length :=
        hnc h2[i] (List.getElem?_mem hnd) i2 hnx
      rw [ih i2 hi2 ?_]
      intro j hjmem
      refine hagree j ?_
      rw [awalk_cons_some f hnd, hnx]
      exact List.mem_cons_of_mem _ hjmem

theorem awalk_len_le {h : List anode} : ∀ (f : Nat) (o : Option Nat),
    (awalk h f o).length ≤ f := by
  intro f
  induction f with
  | zero => intro o; simp [awalk]
  | succ f ih =>
    intro o
    match o with
    | none => rw [awalk_none]; simp
    | some i =>
      cases hj : h[i]? with
      | none => rw [awalk_cons_none f hj]; simp
      | some nd =>
        rw [awalk_cons_some f hj]
        simp only [List.length_cons]
        exact Nat.succ_le_succ (ih nd.next)

theorem list_map_getD {α β : Type} (l : List α) (d : α) (g : α → β) :
    (List.range l.length).map (fun j => g (l.getD j d)) = l.map g := by
  induction l with
  | nil => rfl
  | cons a t ih =>
    show (List.range (t.length + 1)).map _ = _
    rw [List.range_succ_eq_map]
    simp only [List.map_cons, List.map_map, List.getD_cons_zero,
      Function.comp_def, List.getD_cons_succ]
    rw [ih]

/-- The heap after a copy: old cells unchanged. -/
theorem acopy_old_cells {h : List anode} {root : Nat} {i : Nat}
    (hi : i < h.length) : (acopy h root).1[i]? = h[i]? := by
  show (h ++ _)[i]? = h[i]?
  rw [List.getElem?_append, if_pos hi]

/-- The heap after a copy: the `j`-th fresh cell. -/
theorem acopy_new_cells {h : List anode} {root : Nat} {j : Nat}
    (hj : j < (achain h root).length) :
    (acopy h root).1[h.length + j]? =
      some ⟨acell_str h ((achain h root).getD j 0),
        if j + 1 < (achain h root).length then some (h.length + j + 1)
        else none⟩ := by
  show (h ++ (List.range (achain h root).length).map _)[h.length + j]? = _
  rw [List.getElem?_append_right (by omega)]
  have harg : h.length + j - h.length = j := by omega
  rw [harg, List.getElem?_map]
  rw [List.getElem?_range hj]
  rfl

theorem acopy_len {h : List anode} {root : Nat} :
    (acopy h root).1.length = h.length + (achain h root).length := by
  show (h ++ _).length = _
  simp

/-- The walk through the fresh cells is the arithmetic progression of their
indices. -/
theorem acopy_walk {h : List anode} {root : Nat} : ∀ (d j : Nat),
    j + d = (achain h root).length → ∀ f, d ≤ f →
    awalk (acopy h root).1 f (some (h.length + j)) =
      (List.range d).map (fun t => h.length + j + t) := by
  intro d
  induction d with
  | zero =>
    intro j hj f _
    have hout : (acopy h root).1[h.length + j]? = none := by
      rw [List.getElem?_eq_none]
      rw [acopy_len]
      omega
    match f with
    | 0 => rfl
    | f + 1 => rw [awalk_cons_none f hout]; rfl
  | succ d ih =>
    intro j hj f hf
    have hjlt : j < (achain h root).length := by omega
    match f, hf with
    | f + 1, _ =>
      rw [awalk_cons_some f (acopy_new_cells hjlt)]
      by_cases hlast : j + 1 < (achain h root).length
      · have hnext : (⟨acell_str h ((achain h root).getD j 0),
            if j + 1 < (achain h root).length then some (h.length + j + 1)
            else none⟩ : anode).next = some (h.length + j + 1) := by
          show (if j + 1 < (achain h root).length
            then some (h.length + j + 1) else none) = _
          rw [if_pos hlast]
        rw [hnext]
        have := ih (j + 1) (by omega) f (by omega)
        rw [show h.length + j + 1 = h.length + (j + 1) from by omega, this]
        rw [List.range_succ_eq_map]
        simp only [List.map_cons, List.map_map, Function.comp_def]
        congr 1
        apply List.map_congr_left
        intro t _
        omega
      · have hd0 : d = 0 := by omega
        subst hd0
        have hnext : (⟨acell_str h ((achain h root).getD j 0),
            if j + 1 < (achain h root).length then some (h.length + j + 1)
            else none⟩ : anode).next = none := by
          show (if j + 1 < (achain h root).length
            then some (h.length + j + 1) else none) = _
          rw [if_neg hlast]
        rw [hnext, awalk_none]
        rfl

/-- The chain of an in-bounds root is nonempty. -/
theorem achain_ne_nil {h : List anode} {root : Nat} (hroot : root < h.length) :
    achain h root ≠ [] := by
  show awalk h (h.length + 1) (some root) ≠ []
  rw [awalk_cons_some h.length (List.getElem?_eq_getElem hroot)]
  simp

/-- Deep-copy correctness over the storage model: the copy materializes the
same string, occupies only fresh cells disjoint from the source rope's
cells, the heap stays closed, and each rope's string depends only on its own
cells — so mutating one rope's cells (plus fresh allocations) can never
change the other's string. -/
theorem acopy_ok {h : List anode} {root : Nat} (hnc : NextClosed h)
    (hroot : root < h.length) (hst : ChainStable h root) :
    a_to_utf8 (acopy h root).1 (acopy h root).2 =
        a_to_utf8 (acopy h root).1 root ∧
      a_to_utf8 (acopy h root).1 root = a_to_utf8 h root ∧
      (∀ i ∈ achain (acopy h root).1 root,
        i ∉ achain (acopy h root).1 (acopy h root).2) ∧
      NextClosed (acopy h root).1 ∧
      (∀ h3 : List anode, (acopy h root).1.length ≤ h3.length →
        (∀ i ∈ achain (acopy h root).1 root, h3[i]? = (acopy h root).1[i]?) →
        a_to_utf8 h3 root = a_to_utf8 (acopy h root).1 root) ∧
      (∀ h3 : List anode, (acopy h root).1.length ≤ h3.length →
        (∀ i ∈ achain (acopy h root).1 (acopy h root).2,
          h3[i]? = (acopy h root).1[i]?) →
        a_to_utf8 h3 (acopy h root).2 =
          a_to_utf8 (acopy h root).1 (acopy h root).2) := by
  have hmem_lt : ∀ i ∈ achain h root, i < h.length := by
    intro i hi
    exact awalk_mem_lt _ _ i hi
  have hLpos : 1 ≤ (achain h root).length := by
    cases hcc : achain h root with
    | nil => exact absurd hcc (achain_ne_nil hroot)
    | cons x xs => simp
  have hLle : (achain h root).length ≤ h.length + 1 := awalk_len_le _ _
  have hlen' : (acopy h root).1.length = h.length + (achain h root).length :=
    acopy_len
  have F2 : ∀ g, h.length + 1 ≤ g →
      awalk h g (some root) = achain h root := by
    intro g hg
    exact (awalk_stable (h.length + 1) (some root) hst g hg).symm
  have F3 : ∀ g, awalk (acopy h root).1 g (some root) =
      awalk h g (some root) := by
    intro g
    refine awalk_frame hnc g root hroot ?_
    intro j hj
    exact acopy_old_cells (awalk_mem_lt _ _ j hj)
  have F4 : achain (acopy h root).1 root = achain h root := by
    show awalk (acopy h root).1 ((acopy h root).1.length + 1) (some root) = _
    rw [F3 ((acopy h root).1.length + 1)]
    exact F2 ((acopy h root).1.length + 1) (by omega)
  have F5 : ∀ g, (achain h root).length ≤ g →
      awalk (acopy h root).1 g (some h.length) =
        (List.range (achain h root).length).map (fun t => h.length + t) := by
    intro g hg
    have := @acopy_walk h root (achain h root).length 0
      (by omega) g hg
    rw [Nat.add_zero] at this
    rw [this]
  have F5c : achain (acopy h root).1 (acopy h root).2 =
      (List.range (achain h root).length).map (fun t => h.length + t) := by
    show awalk (acopy h root).1 ((acopy h root).1.length + 1)
      (some h.length) = _
    exact F5 ((acopy h root).1.length + 1) (by omega)
  have Fstr_old : ∀ i, i < h.length →
      acell_str (acopy h root).1 i = acell_str h i := by
    intro i hi
    show (((acopy h root).1[i]?).map anode.str).getD [] = _
    rw [acopy_old_cells hi]
    rfl
  have Fstr_new : ∀ j, j < (achain h root).length →
      acell_str (acopy h root).1 (h.length + j) =
        acell_str h ((achain h root).getD j 0) := by
    intro j hj
    show (((acopy h root).1[h.length + j]?).map anode.str).getD [] = _
    rw [acopy_new_cells hj]
    rfl
  have F7 : a_to_utf8 (acopy h root).1 root = a_to_utf8 h root := by
    show ((achain (acopy h root).1 root).map
        (acell_str (acopy h root).1)).flatten ++ [0] = _
    rw [F4]
    congr 2
    apply List.map_congr_left
    intro i hi
    exact Fstr_old i (hmem_lt i hi)
  have F6 : a_to_utf8 (acopy h root).1 (acopy h root).2 =
      a_to_utf8 h root := by
    show ((achain (acopy h root).1 (acopy h root).2).map
        (acell_str (acopy h root).1)).flatten ++ [0] = _
    rw [F5c, List.map_map]
    have hmaps : ((List.range (achain h root).length).map
        (acell_str (acopy h root).1 ∘ (fun t => h.length + t))) =
        (List.range (achain h root).length).map
          (fun j => acell_str h ((achain h root).getD j 0)) := by
      apply List.map_congr_left
      intro j hj
      rw [List.mem_range] at hj
      show acell_str (acopy h root).1 (h.length + j) = _
      exact Fstr_new j hj
    rw [hmaps, list_map_getD]
    rfl
  have F9 : NextClosed (acopy h root).1 := by
    intro nd hnd j hj
    rcases List.mem_append.mp hnd with hnd | hnd
    · have := hnc nd hnd j hj
      omega
    · rw [List.mem_map] at hnd
      obtain ⟨t, ht, rfl⟩ := hnd
      rw [List.mem_range] at ht
      by_cases hlast : t + 1 < (achain h root).length
      · have : (if t + 1 < (achain h root).length
            then some (h.length + t + 1) else none) = some j := hj
        rw [if_pos hlast] at this
        cases this
        omega
      · have : (if t + 1 < (achain h root).length
            then some (h.length + t + 1) else none) = some j := hj
        rw [if_neg hlast] at this
        cases this
  refine ⟨by rw [F6, F7], F7, ?_, F9, ?_, ?_⟩
  · intro i hi hcon
    rw [F4] at hi
    rw [F5c, List.mem_map] at hcon
    obtain ⟨t, _, rfl⟩ := hcon
    have := hmem_lt _ hi
    omega
  · intro h3 hlen3 hagree
    rw [F4] at hagree
    have hwalk3 : awalk h3 (h3.length + 1) (some root) =
        awalk (acopy h root).1 (h3.length + 1) (some root) := by
      refine awalk_frame F9 (h3.length + 1) root (by omega) ?_
      intro j hj
      rw [F3, F2 _ (by omega)] at hj
      exact hagree j hj
    have hchain3 : achain h3 root = achain h root := by
      show awalk h3 (h3.length + 1) (some root) = _
      rw [hwalk3, F3, F2 _ (by omega)]
    show ((achain h3 root).map (acell_str h3)).flatten ++ [0] =
      ((achain (acopy h root).1 root).map
        (acell_str (acopy h root).1)).flatten ++ [0]
    rw [hchain3, F4]
    congr 2
    apply List.map_congr_left
    intro i hi
    show ((h3[i]?).map anode.str).getD [] = _
    rw [hagree i hi]
    rfl
  · intro h3 hlen3 hagree
    rw [F5c] at hagree
    have hwalk3 : awalk h3 (h3.length + 1) (some h.length) =
        awalk (acopy h root).1 (h3.length + 1) (some h.length) := by
      refine awalk_frame F9 (h3.length + 1) h.length (by omega) ?_
      intro j hj
      rw [F5 _ (by omega)] at hj
      exact hagree j hj
    have hchain3 : achain h3 (acopy h root).2 =
        (List.range (achain h root).length).map (fun t => h.length + t) := by
      show awalk h3 (h3.length + 1) (some h.length) = _
      rw [hwalk3]
      exact F5 _ (by omega)
    show ((achain h3 (acopy h root).2).map (acell_str h3)).flatten ++ [0] =
      ((achain (acopy h root).1 (acopy h root).2).map
        (acell_str (acopy h root).1)).flatten ++ [0]
    rw [hchain3, F5c]
    congr 2
    apply List.map_congr_left
    intro i hi
    have hmem : i ∈ (List.range (achain h root).length).map
        (fun t => h.length + t) := hi
    show ((h3[i]?).map anode.str).getD [] = _
    rw [hagree i hmem]
    rfl

/-! ## The claims -/

/-- C1: for every rope and every byte sequence failing UTF-8 validation,
`rope_insert` returns `ROPE_INVALID_UTF8` and leaves the rope exactly as
before the call — in particular `rope_char_count`, `rope_byte_count` and
the materialized string are unchanged (atomic reject, detected before any
mutation). -/
theorem claim_C1_insert_invalid_atomic (r : rope) (pos : Nat)
    (str : List Nat) (h : utf8_count_chars? str = none) :
    rope_insert r pos str = some (ROPE_INVALID_UTF8, r) ∧
      ∀ res r2, rope_insert r pos str = some (res, r2) →
        rope_char_count r2 = rope_char_count r ∧
        rope_byte_count r2 = rope_byte_count r ∧
        rope_to_utf8 r2 = rope_to_utf8 r := by
  refine ⟨rope_insert_invalid r pos h, ?_⟩
  intro res r2 h2
  rw [rope_insert_invalid r pos h] at h2
  cases h2
  exact ⟨rfl, rfl, rfl⟩

theorem claim_C1_witness :
    utf8_count_chars? [128] = none ∧
      rope_insert rope_new 0 [128] = some (ROPE_INVALID_UTF8, rope_new) :=
  ⟨by decide, (claim_C1_insert_invalid_atomic rope_new 0 [128] (by decide)).1⟩

/-- C2 counterexample: at `p = 1` and `s = "ab"` (so `p ≤ len_chars(s) = 2`
as the claim requires), `insert(new(), p, s)` cannot be performed at all —
position 1 exceeds the empty rope's character count 0, the §7 precondition
violation — so no rope results and the round trip fails as stated. -/
theorem claim_C2_counterexample :
    ¬ ∃ r2, rope_insert rope_new 1 [97, 98] = some (ROPE_OK, r2) ∧
        rope_to_utf8 (rope_del r2 1 2) = rope_to_utf8 rope_new := by
  intro ⟨r2, h, _⟩
  have h0 : rope_insert rope_new 1 [97, 98] = none := by decide
  rw [h0] at h
  cases h

/-- C2 amended: for insertion positions within the target rope — for the
empty rope this means `p = 0` — inserting a valid string and deleting its
`char_count` characters back at the same position is a round trip returning
the empty rope's materialized string. -/
theorem claim_C2_round_trip (s : List Nat) (n : Nat)
    (h : utf8_count_chars? s = some n) :
    ∃ r2, rope_insert rope_new 0 s = some (ROPE_OK, r2) ∧
      rope_to_utf8 (rope_del r2 0 n) = rope_to_utf8 rope_new := by
  obtain ⟨gst, hgst, hn⟩ := utf8_groups_of_count h
  subst hn
  have hwfnew : ropeWf rope_new := by decide
  obtain ⟨r2, hins, hwf2, hcont, hcc, _⟩ :=
    @rope_insert_ok rope_new 0 s gst hwfnew hgst (by decide)
  refine ⟨r2, hins, ?_⟩
  have hnil : rope_content rope_new = [] := rfl
  have hcont2 : rope_content r2 = s := by
    rw [hcont, hnil]
    simp
  obtain ⟨_, _, hdel⟩ := rope_del_ok 0 gst.length hwf2
  have hccr2 : r2.num_chars = gst.length := by
    rw [hcc]
    have h00 : rope_new.num_chars = 0 := rfl
    omega
  show rope_content (rope_del r2 0 gst.length) ++ [0] = _
  rw [hdel, hcont2, hccr2]
  have hm1 : min 0 gst.length = 0 := by omega
  have hm2 : min (0 + gst.length) gst.length = gst.length := by omega
  rw [hm1, hm2]
  have hfull : chars_to_bytes s gst.length = s.length :=
    chars_to_bytes_full hgst (le_refl _)
  have hzero : chars_to_bytes s 0 = 0 := rfl
  rw [hfull, hzero, List.take_zero, List.drop_length]
  rfl

theorem claim_C2_witness :
    utf8_count_chars? [97] = some 1 ∧
      ∃ r2, rope_insert rope_new 0 [97] = some (ROPE_OK, r2) ∧
        rope_to_utf8 (rope_del r2 0 1) = rope_to_utf8 rope_new :=
  ⟨by decide, claim_C2_round_trip [97] 1 (by decide)⟩

/-- C3: for every reachable rope and `pos ≤ char_count(r) < pos + count`,
`rope_del` removes exactly `char_count(r) - pos` characters: deletion is a
total function over its clamped domain and silently clamps past-the-end
ranges to the available length (no error value exists in its type). -/
theorem claim_C3_del_clamps {r : rope} (pos count : Nat) (hr : Reachable r)
    (hpos : pos ≤ rope_char_count r)
    (hover : rope_char_count r < pos + count) :
    rope_char_count r - rope_char_count (rope_del r pos count) =
        rope_char_count r - pos ∧
      rope_char_count (rope_del r pos count) = pos := by
  have hwf := reachable_wf hr
  obtain ⟨_, hcc, _⟩ := rope_del_ok pos count hwf
  have h2 : rope_char_count (rope_del r pos count) =
      r.num_chars - (min (pos + count) r.num_chars - min pos r.num_chars) :=
    hcc
  have heq : rope_char_count r = r.num_chars := rfl
  rw [h2]
  constructor <;> omega

theorem claim_C3_witness :
    0 ≤ rope_char_count rope_new ∧ rope_char_count rope_new < 0 + 1 ∧
      rope_char_count (rope_del rope_new 0 1) = 0 :=
  ⟨by decide, by decide,
    (claim_C3_del_clamps 0 1 Reachable.new (by decide) (by decide)).2⟩

/-- C4: in every reachable rope, the container's `num_chars` and
`num_bytes` equal the sums over all segments of the segments' character
and byte counts, both are zero exactly for the empty rope, and each
segment's level-0 `skip_size` (what `rope_node_chars` reads out of
`nexts[0].skip_size`) equals that segment's own character count; the
`nodes` list is by construction the complete ordered level-0 chain. -/
theorem claim_C4_counts_invariant {r : rope} (hr : Reachable r) :
    r.num_chars = totalChars r.nodes ∧ r.num_bytes = totalBytes r.nodes ∧
      (∀ nd ∈ r.nodes, rope_node_chars nd = count_chars nd.str) ∧
      ((r.num_chars = 0 ∧ r.num_bytes = 0) ↔ rope_content r = []) := by
  obtain ⟨hne, hw, hc, hb⟩ := reachable_wf hr
  refine ⟨hc, hb, ?_, ?_, ?_⟩
  · intro nd hnd
    exact (hw nd hnd).2.2
  · intro ⟨h1, h2⟩
    have hlen : (rope_content r).length = 0 := by
      rw [rope_content_eq, joinStrs_length]
      omega
    exact List.length_eq_zero.mp hlen
  · intro hcont
    have hlen : totalBytes r.nodes = 0 := by
      rw [← joinStrs_length, ← rope_content_eq, hcont]
      rfl
    have hchars : totalChars r.nodes = 0 := by
      rw [← count_join_eq_totalChars hw, ← rope_content_eq, hcont]
      rfl
    constructor <;> omega

theorem claim_C4_witness :
    rope_new.num_chars = totalChars rope_new.nodes ∧
      rope_new.num_bytes = totalBytes rope_new.nodes ∧
      (∀ nd ∈ rope_new.nodes, rope_node_chars nd = count_chars nd.str) ∧
      ((rope_new.num_chars = 0 ∧ rope_new.num_bytes = 0) ↔
        rope_content rope_new = []) :=
  claim_C4_counts_invariant Reachable.new

/-- C5: in every reachable rope no segment's byte buffer ends in the middle
of a multi-byte UTF-8 sequence: each buffer is accepted by the scanner from
start to end (a whole number of codepoints), so every split lies on a
codepoint boundary and deletion, being character-granular, never creates an
invalid boundary. -/
theorem claim_C5_segment_boundaries {r : rope} (hr : Reachable r) :
    ∀ nd ∈ r.nodes, (utf8_count_chars? nd.str).isSome = true := by
  intro nd hnd
  obtain ⟨gs, hgs⟩ :=
    Option.isSome_iff_exists.mp ((reachable_wf hr).2.1 nd hnd).1
  rw [utf8_count_chars_of_groups hgs]
  rfl

theorem claim_C5_witness :
    (utf8_count_chars? (⟨[], 0⟩ : rope_node).str).isSome = true :=
  claim_C5_segment_boundaries Reachable.new ⟨[], 0⟩ (List.Mem.head _)

/-- C6: after every sequence of inserts and deletes (any reachable rope),
`rope_char_count` equals the number of codepoints of `to_utf8(r)` excluding
the sentinel terminator, and `rope_byte_count` equals the byte length of
`to_utf8(r)` excluding the sentinel. -/
theorem claim_C6_counts_vs_string {r : rope} (hr : Reachable r) :
    utf8_count_chars? ((rope_to_utf8 r).dropLast) =
        some (rope_char_count r) ∧
      rope_byte_count r + 1 = (rope_to_utf8 r).length := by
  obtain ⟨hne, hw, hc, hb⟩ := reachable_wf hr
  have hdl : (rope_to_utf8 r).dropLast = rope_content r := by
    show (rope_content r ++ [0]).dropLast = rope_content r
    simp
  obtain ⟨gs, hgs, hgl⟩ := joinStrs_groups hw
  constructor
  · rw [hdl, rope_content_eq, utf8_count_chars_of_groups hgs, hgl]
    show some (totalChars r.nodes) = some r.num_chars
    rw [hc]
  · have hlen : (rope_to_utf8 r).length = totalBytes r.nodes + 1 := by
      show (rope_content r ++ [0]).length = _
      rw [List.length_append, rope_content_eq, joinStrs_length]
      rfl
    rw [hlen]
    show r.num_bytes + 1 = _
    omega

theorem claim_C6_witness :
    utf8_count_chars? ((rope_to_utf8 rope_new).dropLast) =
        some (rope_char_count rope_new) ∧
      rope_byte_count rope_new + 1 = (rope_to_utf8 rope_new).length :=
  claim_C6_counts_vs_string Reachable.new

/-- C7: `rope_copy` produces a rope materializing the same string
(`to_utf8(copy(r)) = to_utf8(r)`), and the deep copy shares no storage with
the original: over the explicit heap model, the copy's string equals the
original's, the cell sets of the two ropes are disjoint, the heap stays
closed, and each rope's string depends only on its own cells — so a
mutation touching only the copy's cells (plus freshly allocated ones)
leaves the original's string unchanged, and vice versa. -/
theorem claim_C7_copy_independent (r : rope) (h : List anode) (root : Nat)
    (hnc : NextClosed h) (hroot : root < h.length)
    (hst : ChainStable h root) :
    rope_to_utf8 (rope_copy r) = rope_to_utf8 r ∧
      a_to_utf8 (acopy h root).1 (acopy h root).2 =
        a_to_utf8 (acopy h root).1 root ∧
      (∀ i ∈ achain (acopy h root).1 root,
        i ∉ achain (acopy h root).1 (acopy h root).2) ∧
      NextClosed (acopy h root).1 ∧
      (∀ h3 : List anode, (acopy h root).1.length ≤ h3.length →
        (∀ i ∈ achain (acopy h root).1 root, h3[i]? = (acopy h root).1[i]?) →
        a_to_utf8 h3 root = a_to_utf8 (acopy h root).1 root) ∧
      (∀ h3 : List anode, (acopy h root).1.length ≤ h3.length →
        (∀ i ∈ achain (acopy h root).1 (acopy h root).2,
          h3[i]? = (acopy h root).1[i]?) →
        a_to_utf8 h3 (acopy h root).2 =
          a_to_utf8 (acopy h root).1 (acopy h root).2) := by
  obtain ⟨hcopy, horig, hdisj, hclosed, hframe1, hframe2⟩ :=
    acopy_ok hnc hroot hst
  exact ⟨by rw [rope_copy_eq], hcopy, hdisj, hclosed, hframe1, hframe2⟩

theorem claim_C7_witness :
    NextClosed [⟨[104, 105], none⟩] ∧ 0 < ([⟨[104, 105], none⟩] : List anode).length ∧
      ChainStable [⟨[104, 105], none⟩] 0 ∧
      (rope_to_utf8 (rope_copy rope_new) = rope_to_utf8 rope_new ∧
        a_to_utf8 (acopy [⟨[104, 105], none⟩] 0).1
            (acopy [⟨[104, 105], none⟩] 0).2 =
          a_to_utf8 (acopy [⟨[104, 105], none⟩] 0).1 0 ∧
        (∀ i ∈ achain (acopy [⟨[104, 105], none⟩] 0).1 0,
          i ∉ achain (acopy [⟨[104, 105], none⟩] 0).1
            (acopy [⟨[104, 105], none⟩] 0).2) ∧
        NextClosed (acopy [⟨[104, 105], none⟩] 0).1 ∧
        (∀ h3 : List anode, (acopy [⟨[104, 105], none⟩] 0).1.length ≤ h3.length →
          (∀ i ∈ achain (acopy [⟨[104, 105], none⟩] 0).1 0,
            h3[i]? = (acopy [⟨[104, 105], none⟩] 0).1[i]?) →
          a_to_utf8 h3 0 = a_to_utf8 (acopy [⟨[104, 105], none⟩] 0).1 0) ∧
        (∀ h3 : List anode, (acopy [⟨[104, 105], none⟩] 0).1.length ≤ h3.length →
          (∀ i ∈ achain (acopy [⟨[104, 105], none⟩] 0).1
              (acopy [⟨[104, 105], none⟩] 0).2,
            h3[i]? = (acopy [⟨[104, 105], none⟩] 0).1[i]?) →
          a_to_utf8 h3 (acopy [⟨[104, 105], none⟩] 0).2 =
            a_to_utf8 (acopy [⟨[104, 105], none⟩] 0).1
              (acopy [⟨[104, 105], none⟩] 0).2)) := by
  have hnc : NextClosed [⟨[104, 105], none⟩] := by
    intro nd hnd j hj
    rw [List.mem_singleton] at hnd
    subst hnd
    cases hj
  refine ⟨hnc, by decide, by decide, ?_⟩
  exact claim_C7_copy_independent rope_new [⟨[104, 105], none⟩] 0 hnc
    (by decide) (by decide)

/-- C8: an insertion position `pos > char_count(r)` is a precondition
violation that the implementation does not clamp to the current length —
the call produces no resulting rope (it is not executed as an insert at a
clamped position) — while insertion exactly at `pos = char_count(r)`
appends at the end. -/
theorem claim_C8_insert_position_policy {r : rope} {str : List Nat}
    {n : Nat} (hr : Reachable r) (hstr : utf8_count_chars? str = some n) :
    (∀ pos, rope_char_count r < pos → rope_insert r pos str = none) ∧
      ∃ r2, rope_insert r (rope_char_count r) str = some (ROPE_OK, r2) ∧
        rope_to_utf8 r2 = rope_content r ++ str ++ [0] := by
  have hwf := reachable_wf hr
  obtain ⟨gst, hgst, hn⟩ := utf8_groups_of_count hstr
  constructor
  · intro pos hpos
    exact rope_insert_oob str hwf hpos hstr
  · obtain ⟨r2, hins, hwf2, hcont, _, _⟩ :=
      @rope_insert_ok r (rope_char_count r) str gst hwf hgst (le_refl _)
    refine ⟨r2, hins, ?_⟩
    obtain ⟨gs, hgs, hgl⟩ := joinStrs_groups hwf.2.1
    have hgsr : utf8_groups? (rope_content r) = some gs := hgs
    have hccw := hwf.2.2.1
    have hle2 : gs.length ≤ rope_char_count r := by
      rw [hgl]
      show totalChars r.nodes ≤ r.num_chars
      omega
    have hfull : chars_to_bytes (rope_content r) (rope_char_count r) =
        (rope_content r).length := chars_to_bytes_full hgsr hle2
    show rope_content r2 ++ [0] = _
    rw [hcont, hfull, List.take_length, List.drop_length,
      List.append_nil]

theorem claim_C8_witness :
    utf8_count_chars? [97] = some 1 ∧
      (∀ pos, rope_char_count rope_new < pos →
        rope_insert rope_new pos [97] = none) ∧
      ∃ r2, rope_insert rope_new (rope_char_count rope_new) [97] =
          some (ROPE_OK, r2) ∧
        rope_to_utf8 r2 = rope_content rope_new ++ [97] ++ [0] :=
  ⟨by decide, claim_C8_insert_position_policy (n := 1) Reachable.new
    (by decide)⟩

set_option maxHeartbeats 1000000 in
set_option maxRecDepth 4000 in
/-- C9 counterexample: reading the claim's conditional probability over the
generator's runs, `P(h = k+1 | h ≥ k)` at `k = 1` is `18.75%`, not
`ROPE_BIAS = 25%`.  The height being 1, 2 or more is decided by the first
two draws; over the 10000 equally likely draw pairs, 1875 — not 2500 —
yield height exactly 2 (the run must continue once *and then stop*), so
`100 · #{h = 2} ≠ ROPE_BIAS · #{h ≥ 1}`. -/
theorem claim_C9_counterexample :
    100 * count_draw_pairs (fun a b => decide (random_height [a, b] = 2)) ≠
      ROPE_BIAS *
        count_draw_pairs (fun a b => decide (1 ≤ random_height [a, b])) := by
  decide

/-- C9 amended: every newly created segment is assigned a height `h` with
`1 ≤ h ≤ ROPE_MAX_HEIGHT = 60`, where, over the random choices of the
generator, `P(h ≥ k+1 | h ≥ k)` equals the configured bias `ROPE_BIAS =
25%`: having reached height `k < ROPE_MAX_HEIGHT` (an all-successful run
of `k - 1` draws), exactly `ROPE_BIAS` of the 100 equally likely next
draws extend the height beyond `k`. -/
theorem claim_C9_height_contract (ds : List Nat) :
    (1 ≤ random_height ds ∧ random_height ds ≤ ROPE_MAX_HEIGHT) ∧
      ((∀ x ∈ ds, x % 100 < ROPE_BIAS) → ds.length + 1 < ROPE_MAX_HEIGHT →
        random_height ds = ds.length + 1 ∧
        100 * (List.range 100).countP
            (fun d => decide (random_height (ds ++ [d]) = ds.length + 2)) =
          ROPE_BIAS * (List.range 100).length) := by
  refine ⟨⟨random_height_aux_ge ds 1,
    random_height_aux_le ds 1 (by norm_num [ROPE_MAX_HEIGHT])⟩, ?_⟩
  intro hall hle
  refine ⟨random_height_all_success hall (by omega), ?_⟩
  rw [count_next_draw hall hle]
  decide

theorem claim_C9_witness :
    (1 ≤ random_height [] ∧ random_height [] ≤ ROPE_MAX_HEIGHT) ∧
      (random_height [] = 1 ∧
        100 * (List.range 100).countP
            (fun d => decide (random_height ([] ++ [d]) = 2)) =
          ROPE_BIAS * (List.range 100).length) :=
  ⟨(claim_C9_height_contract []).1,
    (claim_C9_height_contract []).2 (by intro x hx; simp at hx) (by decide)⟩

/-- C10: for every reachable rope, `rope_write_cstr` writes the rope's full
contents as UTF-8 followed by a trailing 0 and returns exactly
`rope_byte_count r + 1`, the exact number of bytes written;
`rope_create_cstr` yields a string with the same contents and
terminator. -/
theorem claim_C10_write_cstr {r : rope} (hr : Reachable r) :
    (rope_write_cstr r).1 = rope_to_utf8 r ∧
      (rope_write_cstr r).2 = rope_byte_count r + 1 ∧
      (rope_write_cstr r).2 = (rope_write_cstr r).1.length ∧
      rope_create_cstr r = rope_to_utf8 r := by
  obtain ⟨hne, hw, hc, hb⟩ := reachable_wf hr
  refine ⟨rfl, ?_, rfl, rfl⟩
  show (rope_content r ++ [0]).length = r.num_bytes + 1
  rw [List.length_append, rope_content_eq, joinStrs_length, hb]
  rfl

theorem claim_C10_witness :
    (rope_write_cstr rope_new).1 = rope_to_utf8 rope_new ∧
      (rope_write_cstr rope_new).2 = rope_byte_count rope_new + 1 ∧
      (rope_write_cstr rope_new).2 = (rope_write_cstr rope_new).1.length ∧
      rope_create_cstr rope_new = rope_to_utf8 rope_new :=
  claim_C10_write_cstr Reachable.new
